import Mathlib

/-!
Verification development for the service_kit dynamic CLI client
(grammar compiler, argument parsing, request dispatcher, completion
engine, shell session history).

The definitions below are a shallow embedding of the Rust sources:
  service_kit/src/cli.rs                  (grammar compiler)
  service_kit/forge-core/src/client.rs    (native dispatcher)
  service_kit/forge-cli-wasm/src/lib.rs   (wasm dispatcher, history)
  service_kit/src/repl/completer.rs       (completion engine)
  service_kit/src/api_cli/repl.rs         (native REPL loop)
  service_kit/src/rest_router_builder.rs  (server-side parameter merge)
Strings are modelled as Lean strings (sequences of characters); Rust byte
positions become character positions.  Third-party crates the sources call
into (shlex word splitting, url-encoding) are embedded from their
documented semantics; places where a library call is modelled are marked.
-/

set_option maxRecDepth 4000

/-! ## Basic character and list utilities -/

/-- Whitespace as recognised by the shlex crate: space, tab, newline. -/
def isShlexWS (c : Char) : Bool :=
  c = ' ' || c = '\t' || c = '\n'

/-- Whitespace as recognised by the Rust standard library
(char::is_whitespace, the Unicode White_Space set). -/
def isRustWS (c : Char) : Bool :=
  c = ' ' || c = '\t' || c = '\n' || c = '\r' || c = '\u000B' || c = '\u000C' ||
  c = '\u0085' || c = '\u00A0' || c = '\u1680' ||
  ('\u2000' ≤ c && c ≤ '\u200A') ||
  c = '\u2028' || c = '\u2029' || c = '\u202F' || c = '\u205F' || c = '\u3000'

/-- Embedding of Rust str::trim: drop whitespace from both ends. -/
def rustTrim (s : String) : String :=
  String.mk (((s.toList.dropWhile isRustWS).reverse.dropWhile isRustWS).reverse)

/-- Embedding of Rust str::starts_with: the second string is a prefix of
the first. -/
def startsWithStr (s pre : String) : Bool :=
  pre.toList.isPrefixOf s.toList

/-- Embedding of Rust char-pattern str::split: split a character list at
every occurrence of the separator (occurrences are removed; empty pieces
are kept, matching Rust split semantics). -/
def splitOnChar (sep : Char) : List Char → List (List Char)
  | [] => [[]]
  | c :: rest =>
    match splitOnChar sep rest with
    | [] => [[]]
    | h :: t => if c = sep then [] :: h :: t else (c :: h) :: t

/-- Join pieces with a single separator character (inverse of
splitOnChar on separator-free pieces). -/
def joinSep (sep : Char) : List (List Char) → List Char
  | [] => []
  | [s] => s
  | s :: rest => s ++ sep :: joinSep sep rest

/-- Fuel-driven core of replaceList; the fuel is an upper bound on the
number of characters of the subject still to scan. -/
def replaceGo (pat repl : List Char) : Nat → List Char → List Char
  | 0, l => l
  | _ + 1, [] => []
  | fuel + 1, c :: rest =>
    if (c :: rest).take pat.length = pat then
      repl ++ replaceGo pat repl fuel ((c :: rest).drop pat.length)
    else
      c :: replaceGo pat repl fuel rest

/-- Embedding of Rust str::replace for a non-empty pattern: replace all
non-overlapping occurrences left to right.  (Every use in the sources has
a non-empty pattern; for an empty pattern the subject is returned.) -/
def replaceList (pat repl l : List Char) : List Char :=
  if pat = [] then l else replaceGo pat repl l.length l

/-- Word splitting of Rust str::split_whitespace, as a one-character
state machine; cur is the word currently being read, if any. -/
def splitWSGo (cur : Option (List Char)) : List Char → List (List Char)
  | [] => cur.elim [] (fun w => [w])
  | c :: rest =>
    if isRustWS c then
      match cur with
      | some w => w :: splitWSGo none rest
      | none => splitWSGo none rest
    else
      splitWSGo (some (cur.getD [] ++ [c])) rest

/-- Embedding of Rust str::split_whitespace. -/
def splitWhitespace (l : List Char) : List (List Char) :=
  splitWSGo none l

/-! ## The shlex word tokenizer

Embedding of shlex::split (the shlex crate), called by the REPL, the wasm
command runner and the completion engine.  The crate reads the input one
character at a time: outside quotes, whitespace separates words, a hash
between words starts a comment running to the end of the line, a
backslash escapes the next character (dropping an escaped newline);
inside single quotes everything is literal; inside double quotes a
backslash before dollar, backquote, double quote or backslash yields that
character, an escaped newline vanishes, and any other escaped character
keeps its backslash.  Input ending inside a quote or after a trailing
backslash is an error: split returns none. -/

/-- Treatment of an escaped character inside double quotes. -/
def escDouble (c : Char) : List Char :=
  if c = '$' || c = '`' || c = '"' || c = '\\' then [c]
  else if c = '\n' then []
  else ['\\', c]

/-- Tokenizer mode: between or inside a plain word, inside single
quotes, inside double quotes, or inside a comment. -/
inductive ShMode where
  | normal
  | single
  | double
  | comment
deriving DecidableEq

/-- One-character-at-a-time tokenizer; cur is the word currently being
assembled (none when between words).  Returns none on an unbalanced
quote or a trailing backslash. -/
def shlexGo (mode : ShMode) (cur : Option (List Char)) :
    List Char → Option (List String)
  | [] =>
    match mode with
    | .normal => some (cur.elim [] (fun w => [String.mk w]))
    | .comment => some []
    | _ => none
  | c :: rest =>
    match mode with
    | .comment =>
      if c = '\n' then shlexGo .normal none rest
      else shlexGo .comment none rest
    | .single =>
      if c = '\'' then shlexGo .normal cur rest
      else shlexGo .single (cur.map (· ++ [c])) rest
    | .double =>
      if c = '"' then shlexGo .normal cur rest
      else if c = '\\' then
        match rest with
        | [] => none
        | c2 :: rest2 => shlexGo .double (cur.map (· ++ escDouble c2)) rest2
      else shlexGo .double (cur.map (· ++ [c])) rest
    | .normal =>
      if isShlexWS c then
        match cur with
        | some w => (shlexGo .normal none rest).map (String.mk w :: ·)
        | none => shlexGo .normal none rest
      else if c = '#' && cur = none then shlexGo .comment none rest
      else if c = '\'' then shlexGo .single (some (cur.getD [])) rest
      else if c = '"' then shlexGo .double (some (cur.getD [])) rest
      else if c = '\\' then
        match rest with
        | [] => none
        | c2 :: rest2 =>
          shlexGo .normal (some (cur.getD [] ++ if c2 = '\n' then [] else [c2])) rest2
      else shlexGo .normal (some (cur.getD [] ++ [c])) rest

/-- Embedding of shlex::split. -/
def shlexSplit (s : String) : Option (List String) :=
  shlexGo .normal none s.toList

/-! ## Spec model (the oas crate types used by the sources) -/

/-- oas::Referenceable: inline data or a reference. -/
inductive Referenceable (α : Type) where
  | data (a : α)
  | ref (r : String)
deriving DecidableEq

/-- oas::ParameterIn. -/
inductive ParameterIn where
  | path
  | query
  | header
  | cookie
deriving DecidableEq

/-- oas::Parameter (the fields the sources read). -/
structure OasParameter where
  name : String
  _in : ParameterIn
  required : Option Bool
  description : Option String
deriving DecidableEq

/-- oas::RequestBody: the content field is modelled by its list of media
type keys (the sources only test membership of application/json). -/
structure OasRequestBody where
  required : Option Bool
  contentTypes : List String
deriving DecidableEq

/-- oas::Operation (the fields the sources read). -/
structure Operation where
  summary : Option String
  description : Option String
  parameters : Option (List (Referenceable OasParameter))
  request_body : Option (Referenceable OasRequestBody)
deriving DecidableEq

/-- oas::PathItem: one optional operation per HTTP method. -/
structure PathItem where
  get : Option Operation := none
  post : Option Operation := none
  put : Option Operation := none
  delete : Option Operation := none
  patch : Option Operation := none
deriving DecidableEq

/-- oas::OpenAPIV3 (SpecDocument): ordered paths map and optional server
urls. -/
structure OpenAPIV3 where
  paths : List (String × PathItem)
  servers : Option (List String) := none

/-! ## Clap command model

The compiled grammar lives in clap Command/Arg values; this models the
fields the sources construct and read (name, about, long, short, help,
required, action, possible values, subcommands). -/

/-- clap::ArgAction (the two constructors the sources use). -/
inductive ArgAction where
  | set
  | setTrue
deriving DecidableEq

/-- clap::ArgAction::takes_values. -/
def ArgAction.takesValues : ArgAction → Bool
  | .set => true
  | .setTrue => false

/-- clap::Arg (the fields the sources construct and read). -/
structure CArg where
  name : String
  long : Option String
  short : Option Char
  help : Option String
  action : ArgAction
  required : Bool
  possibleValues : List (String × Option String) := []
deriving DecidableEq

/-- clap::Command: name, about, arguments and subcommands. -/
structure Cmd where
  name : String
  about : Option String := none
  args : List CArg := []
  subs : List Cmd := []

/-- Command::find_subcommand by exact name (get_subcommands().find). -/
def findSub (cmd : Cmd) (p : String) : Option Cmd :=
  cmd.subs.find? (fun sc => sc.name = p)

/-- Resolve a token of the form --long or -s against a command's
arguments (the completer's and the spec's flag lookup). -/
def findArgByFlag (cmd : Cmd) (tok : String) : Option CArg :=
  cmd.args.find? (fun a =>
    a.long.elim false (fun l => "--" ++ l = tok) ||
    a.short.elim false (fun c => "-" ++ String.mk [c] = tok))

/-! ## Grammar compiler (service_kit/src/cli.rs) -/

/-- Keep every character that is not a brace (cli.rs lines 20-21:
.replace(left-brace, empty).replace(right-brace, empty)). -/
def notBrace (c : Char) : Bool :=
  c ≠ '{' && c ≠ '}'

/-- cli.rs lines 17-21: strip the leading slashes, turn slashes into
dots, drop braces.  (Rust: trim_start_matches, then two replaces; the
replaces have single-character patterns, embedded as map and filter.) -/
def cmdNameStemChars (path : String) : List Char :=
  ((path.toList.dropWhile (· = '/')).map
    (fun c => if c = '/' then '.' else c)).filter notBrace

/-- cli.rs line 33: stem of the path, a dot, the lowercased method. -/
def subcommandNameChars (path method : String) : List Char :=
  cmdNameStemChars path ++ '.' :: method.toList.map Char.toLower

/-- The subcommand name as a string. -/
def subcommandName (path method : String) : String :=
  String.mk (subcommandNameChars path method)

/-- cli.rs lines 40-54: one required/optional value-taking flag per
inline parameter; referenced parameters are skipped (the if-let only
matches Referenceable::Data). -/
def paramArgs (op : Operation) : List CArg :=
  (op.parameters.getD []).filterMap (fun pr =>
    match pr with
    | .data p =>
      some { name := p.name, long := some p.name, short := none,
             help := some (p.description.getD ""), action := .set,
             required := p.required.getD false }
    | .ref _ => none)

/-- cli.rs lines 56-65: the body flag, emitted only for an inline
request body that declares application/json content. -/
def bodyArgs (op : Operation) : List CArg :=
  match op.request_body with
  | some (.data rb) =>
    if rb.contentTypes.contains "application/json" then
      [{ name := "body", long := some "body", short := none,
         help := some "The JSON request body as a string.", action := .set,
         required := rb.required.getD false }]
    else []
  | _ => []

/-- cli.rs lines 23-29: the five supported methods, in source order. -/
def methodsOf (item : PathItem) : List (String × Option Operation) :=
  [("GET", item.get), ("POST", item.post), ("PUT", item.put),
   ("DELETE", item.delete), ("PATCH", item.patch)]

/-- cli.rs lines 16-70 (add_operations_as_subcommands): one subcommand
per defined operation of the path item. -/
def add_operations_as_subcommands (path : String) (item : PathItem) : List Cmd :=
  (methodsOf item).filterMap (fun mo =>
    mo.2.map (fun op =>
      { name := subcommandName path mo.1,
        about := some (op.summary.getD (op.description.getD "")),
        args := paramArgs op ++ bodyArgs op,
        subs := [] }))

/-- cli.rs lines 4-14 (build_cli_from_spec): fold the paths into
subcommands of the root command. -/
def build_cli_from_spec (spec : OpenAPIV3) : Cmd :=
  { name := "forge-api-cli",
    about := some "A dynamic OpenAPI CLI client. After providing the URL, use one of the generated subcommands.",
    args := [],
    subs := spec.paths.flatMap (fun pi => add_operations_as_subcommands pi.1 pi.2) }

/-! ## The spec-modelled argument parser

The sources parse tokens with clap's try_get_matches_from (the clap
crate, not part of this repository).  Its behaviour over the compiled
grammar is modelled from the specification. -/

/-- Parse errors of the argument parser (spec section 4.2). -/
inductive ParseError where
  | emptyInput
  | unknownSubcommand (tok : String)
  | unknownFlag (tok : String)
  | missingValue (flag : String)
  | missingRequired (name : String)
  | unexpectedToken (tok : String)
deriving DecidableEq

/-- Modelled from the spec: flag scanning of the Argument Parser
(section 4.2) - the matching clap performs inside try_get_matches_from,
whose implementation is the external clap crate.  Tokens are scanned
left to right; a dash token resolves by long or short form; a
value-taking flag consumes the next token; at end of input every
required flag must be bound. -/
def parseFlagsSpec (node : Cmd) : List String → List (String × String) →
    Except ParseError (List (String × String))
  | [], acc =>
    match node.args.find? (fun a => a.required && (acc.lookup a.name).isNone) with
    | some a => .error (.missingRequired a.name)
    | none => .ok acc
  | tok :: rest, acc =>
    if startsWithStr tok "-" then
      match findArgByFlag node tok with
      | none => .error (.unknownFlag tok)
      | some a =>
        if a.action.takesValues then
          match rest with
          | [] => .error (.missingValue tok)
          | v :: rest2 => parseFlagsSpec node rest2 (acc ++ [(a.name, v)])
        else parseFlagsSpec node rest (acc ++ [(a.name, "")])
    else .error (.unexpectedToken tok)

/-- Modelled from the spec: the Argument Parser contract of section 4.2.
The first token must name a direct child subcommand of the root (the
compiled grammar is flat); the rest are flags and values. -/
def parseTokens (root : Cmd) : List String → Except ParseError (String × List (String × String))
  | [] => .error .emptyInput
  | t :: rest =>
    match findSub root t with
    | none => .error (.unknownSubcommand t)
    | some node => (parseFlagsSpec node rest []).map (fun m => (node.name, m))

/-! ## Request dispatcher (forge-cli-wasm/src/lib.rs, execute_request_wasm)

The pure part of the wasm dispatcher, up to the point where the HTTP
request is issued: subcommand-name resolution against the spec paths,
method selection, path-placeholder substitution, query map and final
URL.  (The network send, the JSON parse of the body string and the
response pretty-printing that follow are not modelled; the body is
carried as its raw bound string.) -/

/-- lib.rs lines 63-66: split a path key into its non-empty
slash-separated segments. -/
def splitSegs (key : String) : List (List Char) :=
  (splitOnChar '/' key.toList).filter (fun s => !s.isEmpty)

/-- lib.rs line 72: a segment of the form left-brace name right-brace is
an OpenAPI placeholder. -/
def isParamSeg (ks : List Char) : Bool :=
  ks.head? = some '{' && ks.getLast? = some '}'

/-- lib.rs lines 62-78: a path key matches the command segments when the
lengths agree and each key segment is a placeholder or equal to the
corresponding command segment. -/
def segsMatch (keySegs cmdSegs : List (List Char)) : Bool :=
  keySegs.length = cmdSegs.length &&
  (keySegs.zip cmdSegs).all (fun p => isParamSeg p.1 || p.1 = p.2)

/-- lib.rs lines 48-86: derive the command segments from the dotted
subcommand name and find the first spec path whose segments match. -/
def resolvePathWasm (spec : OpenAPIV3) (subcommandName : String) :
    Except String (String × PathItem) :=
  let parts := splitOnChar '.' subcommandName.toList
  match parts.getLast? with
  | none => .error "Invalid subcommand name"
  | some _ =>
    if parts.length < 2 then .error "Invalid subcommand name"
    else
      let commandSegments := parts.dropLast
      match spec.paths.find? (fun pi => segsMatch (splitSegs pi.1) commandSegments) with
      | some pi => .ok pi
      | none =>
        .error ("Path not found for /" ++ String.mk (joinSep '/' commandSegments))

/-- lib.rs lines 49-52: the method is the uppercased last dotted
segment. -/
def dispatchMethodStr (subcommandName : String) : String :=
  String.mk (((splitOnChar '.' subcommandName.toList).getLast?.getD []).map Char.toUpper)

/-- lib.rs lines 88-96: select the operation for the method string. -/
def operationForMethod (item : PathItem) (m : String) : Option Operation :=
  if m = "GET" then item.get
  else if m = "POST" then item.post
  else if m = "PUT" then item.put
  else if m = "DELETE" then item.delete
  else if m = "PATCH" then item.patch
  else none

/-- std HashMap::insert on an association list: overwrite the existing
binding of the key, else append.  (Iteration order of the Rust HashMap
is arbitrary; this model fixes insertion order, which no claim depends
on.) -/
def insertAssoc (m : List (String × String)) (k v : String) : List (String × String) :=
  if (m.lookup k).isSome then m.map (fun p => if p.1 = k then (k, v) else p)
  else m ++ [(k, v)]

/-- lib.rs lines 103-120: the body of the parameter loop - a bound path
parameter is substituted into the path template, a bound query parameter
is inserted into the query map, anything else is ignored. -/
def processParamStep (bound : List (String × String))
    (fpqp : List Char × List (String × String))
    (pr : Referenceable OasParameter) : List Char × List (String × String) :=
  match pr with
  | .data p =>
    match bound.lookup p.name with
    | some v =>
      match p._in with
      | .path => (replaceList ('{' :: p.name.toList ++ ['}']) v.toList fpqp.1, fpqp.2)
      | .query => (fpqp.1, insertAssoc fpqp.2 p.name v)
      | _ => fpqp
    | none => fpqp
  | .ref _ => fpqp

/-- lib.rs lines 102-121: walk the operation's parameters in order. -/
def processParams (op : Operation) (bound : List (String × String))
    (path0 : List Char) : List Char × List (String × String) :=
  (op.parameters.getD []).foldl (processParamStep bound) (path0, [])

/-- Hexadecimal digit characters used by percent-encoding. -/
def hexDigit (n : Nat) : Char :=
  if n < 10 then Char.ofNat (48 + n) else Char.ofNat (55 + n % 6)

/-- UTF-8 bytes of a character (standard encoding arithmetic). -/
def utf8Bytes (c : Char) : List Nat :=
  let n := c.toNat
  if n < 128 then [n]
  else if n < 2048 then [192 + n / 64, 128 + n % 64]
  else if n < 65536 then [224 + n / 4096, 128 + (n / 64) % 64, 128 + n % 64]
  else [240 + n / 262144, 128 + (n / 4096) % 64, 128 + (n / 64) % 64, 128 + n % 64]

/-- Embedding of the serde_urlencoded character encoding: alphanumerics
and star, hyphen, dot, underscore pass through, space becomes plus, all
else is percent-encoded byte by byte. -/
def urlencodeChar (c : Char) : List Char :=
  if c.isAlphanum || c = '*' || c = '-' || c = '.' || c = '_' then [c]
  else if c = ' ' then ['+']
  else (utf8Bytes c).flatMap (fun b => ['%', hexDigit (b / 16), hexDigit (b % 16)])

/-- Embedding of serde_urlencoded::to_string over the query pairs (in
the model's insertion order). -/
def encodeQuery (q : List (String × String)) : List Char :=
  joinSep '&' (q.map (fun p =>
    p.1.toList.flatMap urlencodeChar ++ '=' :: p.2.toList.flatMap urlencodeChar))

/-- The request the wasm dispatcher is about to issue. -/
structure ResolvedRequest where
  method : String
  url : String
  query : List (String × String)
  body : Option String
deriving DecidableEq

/-- lib.rs lines 124-132: the first declared server url, if any. -/
def serverUrlOf (spec : OpenAPIV3) : String :=
  match spec.servers with
  | some (s :: _) => s
  | _ => ""

/-- lib.rs lines 149-163: the body string attached to the request - the
bound body value, for an operation with inline JSON content. -/
def bodyValueOf (operation : Operation) (bound : List (String × String)) :
    Option String :=
  match operation.request_body with
  | some (.data rb) =>
    if rb.contentTypes.contains "application/json" then bound.lookup "body"
    else none
  | _ => none

/-- lib.rs lines 42-166 (execute_request_wasm), pure core: everything up
to the fetch call.  The bound argument is the flag values of the parsed
subcommand (clap ArgMatches as an association list). -/
def execute_request_wasm_core (base_url : String) (subcommand_name : String)
    (bound : List (String × String)) (spec : OpenAPIV3) :
    Except String ResolvedRequest :=
  match resolvePathWasm spec subcommand_name with
  | .error e => .error e
  | .ok pi =>
    match operationForMethod pi.2 (dispatchMethodStr subcommand_name) with
    | none => .error ("Operation not found for " ++ subcommand_name)
    | some operation =>
      .ok { method := dispatchMethodStr subcommand_name,
            url := String.mk (base_url.toList ++ (serverUrlOf spec).toList ++
              (processParams operation bound pi.1.toList).1 ++
              (if (processParams operation bound pi.1.toList).2.isEmpty then []
               else '?' :: encodeQuery (processParams operation bound pi.1.toList).2)),
            query := (processParams operation bound pi.1.toList).2,
            body := bodyValueOf operation bound }

/-! ## Server-side parameter extraction
(service_kit/src/rest_router_builder.rs, extract_and_merge_params)

The query-merging step of the REST router: each query pair is inserted
into the merged JSON object with best-effort type inference. -/

/-- A JSON scalar as produced by the query merge.  A number carries the
literal that parsed as an f64 (the floating-point value itself is outside
the model; only which branch was taken matters to the claims). -/
inductive JsonVal where
  | str (s : String)
  | num (lit : String)
  | bool (b : Bool)
deriving DecidableEq

/-- Embedding of Rust u8::eq_ignore_ascii_case lifted to strings
(used via str::eq_ignore_ascii_case). -/
def eqIgnoreAsciiCase (a b : String) : Bool :=
  a.toList.map Char.toLower = b.toList.map Char.toLower

/-- Digit test used by the f64 grammar. -/
def isAsciiDigit (c : Char) : Bool :=
  '0' ≤ c && c ≤ '9'

/-- Exponent part of the f64 grammar: an optional sign then at least one
digit. -/
def f64ExpDigits (l : List Char) : Bool :=
  let l := match l with
    | '+' :: r => r
    | '-' :: r => r
    | r => r
  ¬ l.isEmpty && l.all isAsciiDigit

/-- Mantissa-and-exponent part of the f64 grammar: digits, an optional
dot with optional further digits (at least one digit in total), then an
optional exponent. -/
def f64Mantissa (l : List Char) : Bool :=
  let ds := l.takeWhile isAsciiDigit
  let rest := l.dropWhile isAsciiDigit
  match rest with
  | [] => ¬ ds.isEmpty
  | '.' :: r =>
    let fs := r.takeWhile isAsciiDigit
    let r2 := r.dropWhile isAsciiDigit
    (¬ ds.isEmpty || ¬ fs.isEmpty) &&
      (match r2 with
       | [] => true
       | 'e' :: r3 => f64ExpDigits r3
       | 'E' :: r3 => f64ExpDigits r3
       | _ => false)
  | 'e' :: r3 => ¬ ds.isEmpty && f64ExpDigits r3
  | 'E' :: r3 => ¬ ds.isEmpty && f64ExpDigits r3
  | _ => false

/-- Embedding of Rust str::parse::<f64> viewed as a recognizer: optional
sign, then inf, infinity or nan (ASCII case-insensitive) or a decimal
mantissa with optional exponent. -/
def parsesF64 (s : String) : Bool :=
  let l := match s.toList with
    | '+' :: r => r
    | '-' :: r => r
    | r => r
  let low := l.map Char.toLower
  if low = "inf".toList || low = "infinity".toList || low = "nan".toList then true
  else f64Mantissa l

/-- rest_router_builder.rs lines 30-36: best-effort type inference for
one query value - a number if it parses as f64, a boolean if it ASCII
case-insensitively equals true or false, otherwise the string itself. -/
def coerceQueryValue (v : String) : JsonVal :=
  if parsesF64 v then .num v
  else if eqIgnoreAsciiCase v "true" || eqIgnoreAsciiCase v "false" then
    .bool (eqIgnoreAsciiCase v "true")
  else .str v

/-- serde_json Map::insert on the merged object model. -/
def insertJson (m : List (String × JsonVal)) (k : String) (v : JsonVal) :
    List (String × JsonVal) :=
  if (m.lookup k).isSome then m.map (fun p => if p.1 = k then (k, v) else p)
  else m ++ [(k, v)]

/-- rest_router_builder.rs lines 26-40: fold the parsed query pairs into
the merged parameter object, coercing each value. -/
def mergeQueryParams (merged : List (String × JsonVal))
    (pairs : List (String × String)) : List (String × JsonVal) :=
  pairs.foldl (fun m kv => insertJson m kv.1 (coerceQueryValue kv.2)) merged

/-! ## History buffer (forge-cli-wasm/src/lib.rs)

The VecDeque of command lines: front of the deque is the oldest entry,
modelled as the head of the list. -/

/-- lib.rs lines 217-225 (run_command_async, history recording): a
non-empty trimmed line differing from the newest entry is pushed at the
back; above 1000 entries the front (oldest) is dropped. -/
def recordHistory (h : List String) (command_line : String) : List String :=
  let trimmed := rustTrim command_line
  if trimmed ≠ "" ∧ (h = [] ∨ h.getLast? ≠ some trimmed) then
    let h2 := h ++ [trimmed]
    if 1000 < h2.length then h2.tail else h2
  else h

/-- lib.rs lines 333-338: the position in the deque addressed by the
index (negative indices count from the end).  Integers are modelled as
unbounded (the i32 arithmetic cannot overflow for any buffer the session
can build). -/
def actualIndex (h : List String) (index : Int) : Int :=
  if index < 0 then (h.length : Int) + index else (h.length : Int) - 1 - index

/-- lib.rs lines 327-345 (get_history_item): index 0 is the newest
entry, negative indices count from the end; out of range gives none. -/
def get_history_item (h : List String) (index : Int) : Option String :=
  if h.isEmpty then none
  else if 0 ≤ actualIndex h index ∧ actualIndex h index < (h.length : Int) then
    h.get? (actualIndex h index).toNat
  else none

/-! ## Session step models -/

/-- Outcome of one accepted REPL line in the native session
(api_cli/repl.rs lines 76-116); the loop continues after every outcome
except exitLoop. -/
inductive ReplStep where
  | skip
  | exitLoop
  | help
  | dispatch (sub : String) (bound : List (String × String))
  | parseError (e : ParseError)
  | noSubcommand
deriving DecidableEq

/-- api_cli/repl.rs lines 76-116: trim; skip empty lines; exit and quit
leave the loop; help prints usage; otherwise tokenize with shlex,
falling back to the whole line as a single token when shlex fails, and
hand the tokens to the argument parser (clap matching, spec-modelled). -/
def repl_handle_line (root : Cmd) (buffer : String) : ReplStep :=
  let line := rustTrim buffer
  if line = "" then .skip
  else if line = "exit" ∨ line = "quit" then .exitLoop
  else if line = "help" then .help
  else
    let args := (shlexSplit line).getD [line]
    match parseTokens root args with
    | .ok sm => .dispatch sm.1 sm.2
    | .error e => .parseError e

/-- Outcome of run_command_async in the wasm session (lib.rs lines
195-261), up to the dispatch decision. -/
inductive WasmStep where
  | notInitialized
  | tokenizeError
  | dispatch (sub : String) (bound : List (String × String))
  | parseError (e : ParseError)
  | noSubcommand
deriving DecidableEq

/-- lib.rs lines 195-261 (run_command_async), pure outcome: without an
initialized grammar the call reports that; a failed shlex split reports
an invalid command line without any matching; otherwise the tokens go to
the argument parser and a matched subcommand is dispatched. -/
def run_command_step (grammar : Option Cmd) (command_line : String) : WasmStep :=
  match grammar with
  | none => .notInitialized
  | some root =>
    match shlexSplit command_line with
    | none => .tokenizeError
    | some args =>
      match parseTokens root args with
      | .ok sm => .dispatch sm.1 sm.2
      | .error e => .parseError e

/-! ## Completion engine (service_kit/src/repl/completer.rs)

The ClapCompleter.  A reedline Suggestion carries a value, a
description, a span and an append-whitespace flag.  Rust operations that
can panic (the byte slice of the line at the cursor, the expect on the
last token, the span subtraction) are modelled by Option: none is a
panic. -/

/-- reedline::Suggestion (the fields the completer fills). -/
structure Suggestion where
  value : String
  description : Option String
  spanStart : Nat
  spanEnd : Nat
  appendWhitespace : Bool
deriving DecidableEq

/-- completer.rs lines 140-141: shlex tokens of the truncated line, or a
whitespace split when shlex fails. -/
def tokensOf (l : List Char) : List String :=
  match shlexGo .normal none l with
  | some ts => ts
  | none => (splitWhitespace l).map String.mk

/-- completer.rs lines 26-39: traverse a subcommand path; an unknown
part aborts the whole function with no suggestions (modelled by none). -/
def traverseSubs (cmd : Cmd) : List String → Option Cmd
  | [] => some cmd
  | p :: rest =>
    match findSub cmd p with
    | some sc => traverseSubs sc rest
    | none => none

/-- completer.rs lines 15-54 (find_subcommand_suggestions): after
traversing the leading parts, offer the subcommands whose name starts
with the current word. -/
def relevantCount (parts : List String) (current_word : String) : Nat :=
  if current_word.isEmpty && !parts.isEmpty &&
      (parts.getLast?.elim false (fun p => !p.isEmpty)) then
    parts.length
  else parts.length - 1

def find_subcommand_suggestions (command : Cmd) (parts : List String)
    (current_word : String) (span_start span_end : Nat) : List Suggestion :=
  match traverseSubs command (parts.take (relevantCount parts current_word)) with
  | none => []
  | some cur =>
    cur.subs.filterMap (fun sc =>
      if startsWithStr sc.name current_word then
        some { value := sc.name, description := sc.about,
               spanStart := span_start, spanEnd := span_end,
               appendWhitespace := true }
      else none)

/-- The long-flag contribution of one argument in
find_argument_suggestions (completer.rs lines 68-79). -/
def longSugg (current_word : String) (span_start span_end : Nat)
    (acc : List Suggestion) (arg : CArg) : List Suggestion :=
  match arg.long with
  | some l =>
    if startsWithStr ("--" ++ l) current_word then
      acc ++ [{ value := "--" ++ l, description := arg.help,
                spanStart := span_start, spanEnd := span_end,
                appendWhitespace := !arg.action.takesValues }]
    else acc
  | none => acc

/-- One argument's contribution in find_argument_suggestions: the long
form first, then the short form unless a suggestion with the same value
is already present (completer.rs lines 67-94). -/
def argSuggStep (current_word : String) (span_start span_end : Nat)
    (acc : List Suggestion) (arg : CArg) : List Suggestion :=
  match arg.short with
  | some c =>
    if startsWithStr ("-" ++ String.mk [c]) current_word &&
        !(longSugg current_word span_start span_end acc arg).any
          (fun s => s.value = "-" ++ String.mk [c]) then
      longSugg current_word span_start span_end acc arg ++
        [{ value := "-" ++ String.mk [c], description := arg.help,
           spanStart := span_start, spanEnd := span_end,
           appendWhitespace := !arg.action.takesValues }]
    else longSugg current_word span_start span_end acc arg
  | none => longSugg current_word span_start span_end acc arg

/-- completer.rs lines 56-96 (find_argument_suggestions): flags of the
command whose long or short form starts with the current word; nothing
unless the current word starts with a dash. -/
def find_argument_suggestions (command : Cmd) (current_word : String)
    (span_start span_end : Nat) : List Suggestion :=
  if !(startsWithStr current_word "-") then []
  else command.args.foldl (argSuggStep current_word span_start span_end) []

/-- completer.rs lines 98-117 (find_value_suggestions): the enumerated
possible values of the argument filtered by the current word. -/
def find_value_suggestions (arg : CArg) (current_word : String)
    (span_start span_end : Nat) : List Suggestion :=
  arg.possibleValues.filterMap (fun pv =>
    if startsWithStr pv.1 current_word then
      some { value := pv.1, description := pv.2,
             spanStart := span_start, spanEnd := span_end,
             appendWhitespace := true }
    else none)

/-- completer.rs lines 119-133 (get_command_at_path): descend through
subcommand parts, stopping at the first dash token or unknown part. -/
def get_command_at_path (base_cmd : Cmd) : List String → Cmd
  | [] => base_cmd
  | p :: rest =>
    if startsWithStr p "-" then base_cmd
    else
      match findSub base_cmd p with
      | some sc => get_command_at_path sc rest
      | none => base_cmd

/-- State of the token walk of complete (completer.rs lines 150-197). -/
structure WalkResult where
  cur : Cmd
  lastArg : Option CArg
  potentialValue : Bool

/-- completer.rs lines 157-197: walk the tokens before the current word,
tracking the active command and the last value-taking flag; at the final
token of a line not ending in whitespace, record whether a value is
being completed. -/
def walkLoop (cmd : Cmd) (lastArg : Option CArg) (endsWS : Bool) :
    List String → WalkResult
  | [] => ⟨cmd, lastArg, false⟩
  | p :: rest =>
    if rest.isEmpty && ¬ endsWS then
      ⟨cmd, lastArg, lastArg.elim false (fun a => a.action.takesValues)⟩
    else if startsWithStr p "-" then
      match findArgByFlag cmd p with
      | some a => walkLoop cmd (if a.action.takesValues then some a else none) endsWS rest
      | none => ⟨cmd, none, false⟩
    else
      let lastArg2 := if lastArg.elim false (fun a => a.action.takesValues) then none else lastArg
      match findSub cmd p with
      | some sc => walkLoop sc none endsWS rest
      | none =>
        if ¬ lastArg2.elim false (fun a => a.action.takesValues) then ⟨cmd, lastArg2, false⟩
        else walkLoop cmd none endsWS rest

/-- completer.rs lines 199-216: value suggestions when the token before
the current word is a value-taking flag. -/
def valueCtxSuggestions (root : Cmd) (parts : List String) (current_word : String)
    (span_start pos : Nat) : List Suggestion :=
  if 2 ≤ parts.length then
    let idx := parts.length - 2
    match parts.get? idx with
    | some arg_name_part =>
      let command_for_arg := get_command_at_path root (parts.take idx)
      match findArgByFlag command_for_arg arg_name_part with
      | some clap_arg =>
        if clap_arg.action.takesValues then
          find_value_suggestions clap_arg current_word span_start pos
        else []
      | none => []
    | none => []
  else []

/-- completer.rs lines 238-277: the blank-context argument suggestions
after a trailing space, excluding boolean flags already present. -/
def trailingArgSuggestions (cmd : Cmd) (parts : List String)
    (span_start pos : Nat) : List Suggestion :=
  let existing_flags := parts.filter (fun p => startsWithStr p "-")
  let longs := (find_argument_suggestions cmd "--" span_start pos).filter
    (fun s => startsWithStr s.value "--")
  let keptLongs := longs.filter (fun s =>
    match cmd.args.find? (fun a => a.long.elim false (fun l => "--" ++ l = s.value)) with
    | some a => ¬ (a.action = .setTrue ∧ existing_flags.contains s.value)
    | none => true)
  let shorts := (find_argument_suggestions cmd "-" span_start pos).filter
    (fun s => startsWithStr s.value "-" && ¬ startsWithStr s.value "--")
  let keptShorts := shorts.filter (fun s =>
    match cmd.args.find? (fun a => a.short.elim false (fun c => "-" ++ String.mk [c] = s.value)) with
    | some a => ¬ (a.action = .setTrue ∧ existing_flags.contains s.value)
    | none => true)
  keptLongs ++ keptShorts

/-- completer.rs lines 282-288: keep the first suggestion of each value. -/
def dedupGo (seen : List String) : List Suggestion → List Suggestion
  | [] => []
  | s :: rest =>
    if s.value ∈ seen then dedupGo seen rest
    else s :: dedupGo (s.value :: seen) rest

/-- Deduplicate suggestions by value, preserving first-seen order. -/
def dedupByValue (l : List Suggestion) : List Suggestion :=
  dedupGo [] l

/-- completer.rs lines 199-216: the value-context suggestions (priority
one), emitted only when the walk flagged a pending value. -/
def coreValueSuggs (root : Cmd) (parts : List String) (current_word : String)
    (span_start pos : Nat) (endsWS : Bool) : List Suggestion :=
  if (walkLoop root none endsWS parts).potentialValue then
    valueCtxSuggestions root parts current_word span_start pos
  else []

/-- completer.rs lines 219-223: value suggestions after a trailing
space, when the last walked flag still awaits its value. -/
def coreTrailingValueSuggs (root : Cmd) (parts : List String)
    (span_start pos : Nat) (endsWS : Bool) : List Suggestion :=
  if endsWS && (walkLoop root none endsWS parts).lastArg.elim false
      (fun a => a.action.takesValues) then
    match (walkLoop root none endsWS parts).lastArg with
    | some a => find_value_suggestions a "" span_start pos
    | none => []
  else []

/-- completer.rs lines 226-278: the flag, subcommand and blank-context
suggestions used when no value suggestion was produced. -/
def coreFallbackSuggs (root : Cmd) (parts : List String) (current_word : String)
    (span_start pos : Nat) (endsWS : Bool) : List Suggestion :=
  (if startsWithStr current_word "-" then
    find_argument_suggestions (walkLoop root none endsWS parts).cur
      current_word span_start pos
  else []) ++
  find_subcommand_suggestions (walkLoop root none endsWS parts).cur []
    current_word span_start pos ++
  (if endsWS && current_word.isEmpty then
    trailingArgSuggestions (walkLoop root none endsWS parts).cur parts
      span_start pos
  else [])

/-- completer.rs lines 150-289: the suggestion pipeline after the
current word and span are known. -/
def completeCore (root : Cmd) (parts : List String) (current_word : String)
    (span_start pos : Nat) (endsWS : Bool) : List Suggestion :=
  let s12 := coreValueSuggs root parts current_word span_start pos endsWS ++
    coreTrailingValueSuggs root parts span_start pos endsWS
  dedupByValue (s12 ++
    (if s12.isEmpty then
      coreFallbackSuggs root parts current_word span_start pos endsWS
    else []))

/-- completer.rs lines 136-290 (ClapCompleter::complete).  Rust panics
are modelled by none: the byte slice of the line at an out-of-range
cursor, and the span subtraction and expect (both unreachable, as proved
below). -/
def complete_opt (root : Cmd) (line : String) (pos : Nat) :
    Option (List Suggestion) :=
  if pos ≤ line.toList.length then
    let line_to_cursor := line.toList.take pos
    let parts := tokensOf line_to_cursor
    let endsWS := line_to_cursor.getLast? = some ' '
    if endsWS ∨ parts.isEmpty then
      some (completeCore root parts "" pos pos endsWS)
    else
      match parts.getLast? with
      | none => none
      | some last_part =>
        if last_part.toList.length ≤ pos then
          some (completeCore root parts last_part
            (pos - last_part.toList.length) pos endsWS)
        else none
  else none

/-- The current word being completed, as the completer determines it
(completer.rs lines 143-148): empty when the truncated line ends in a
space or has no tokens, else the last token. -/
def currentWordAt (line : String) (pos : Nat) : String :=
  let line_to_cursor := line.toList.take pos
  let parts := tokensOf line_to_cursor
  if line_to_cursor.getLast? = some ' ' ∨ parts.isEmpty then ""
  else (parts.getLast?).getD ""

/-- forge-cli-wasm/src/lib.rs lines 285-315 (get_completions): without a
compiled grammar the result is the empty suggestion list, otherwise the
completer runs. -/
def get_completions (grammar : Option Cmd) (line : String) (pos : Nat) :
    Option (List Suggestion) :=
  match grammar with
  | none => some []
  | some cmd => complete_opt cmd line pos

/-! ## Concrete fixtures used by the claims and witnesses -/

/-- GET operation of the products path: one required path parameter id. -/
def productOp : Operation :=
  { summary := some "Get a product", description := none,
    parameters := some [.data { name := "id", _in := .path,
                                required := some true,
                                description := some "Product id" }],
    request_body := none }

/-- SpecDocument of scenario A. -/
def productSpec : OpenAPIV3 :=
  { paths := [("/v1/products/{id}", { get := some productOp })] }

/-- An operation with no parameters and no body. -/
def plainOp : Operation :=
  { summary := none, description := none, parameters := none,
    request_body := none }

/-- A grammar with the two subcommands of scenario C. -/
def demoGrammar : Cmd :=
  build_cli_from_spec
    { paths := [("/v1/hello", { get := some plainOp }),
                ("/v1/add", { post := some plainOp })] }

/-- Two paths whose second is shadowed by the placeholder of the first
under the dispatcher's segment matching. -/
def shadowSpec : OpenAPIV3 :=
  { paths := [("/users/{id}", { get := some plainOp }),
              ("/users/profile", { get := some plainOp })] }

/-- An operation with one optional query parameter named count. -/
def countOp : Operation :=
  { summary := none, description := none,
    parameters := some [.data { name := "count", _in := .query,
                                required := some false,
                                description := none }],
    request_body := none }

/-- SpecDocument with a query parameter. -/
def countSpec : OpenAPIV3 :=
  { paths := [("/v1/items", { get := some countOp })] }

/-- An operation with a query parameter named body and no request body. -/
def bodyParamOp : Operation :=
  { summary := none, description := none,
    parameters := some [.data { name := "body", _in := .query,
                                required := some false,
                                description := none }],
    request_body := none }

/-- SpecDocument exercising the reserved flag name. -/
def bodyParamSpec : OpenAPIV3 :=
  { paths := [("/x", { get := some bodyParamOp })] }

/-- The operation of the compiled node declares JSON request-body
content inline (cli.rs lines 56-57). -/
def declaresJsonBody (op : Operation) : Bool :=
  match op.request_body with
  | some (.data rb) => rb.contentTypes.contains "application/json"
  | _ => false

/-- The inline (non-referenced) parameters of an operation. -/
def inlineParams (op : Operation) : List OasParameter :=
  (op.parameters.getD []).filterMap (fun pr =>
    match pr with
    | .data p => some p
    | .ref _ => none)

/-! ## Claim C1 -/

/-- C1: for the SpecDocument with GET /v1/products/(id) and a required
path parameter id, the compiler produces the single subcommand
v1.products.id.get with a required value-taking long flag id; the line
of scenario A tokenizes into three words, parses to that subcommand with
the binding id to 42, and the dispatcher issues GET
http://host/v1/products/42 with no query and no body. -/
theorem claim_C1 :
    ((build_cli_from_spec productSpec).subs.map
      (fun c => (c.name, c.args.map (fun a => (a.long, a.required, a.action)))))
      = [("v1.products.id.get", [(some "id", true, ArgAction.set)])] ∧
    shlexSplit "v1.products.id.get --id 42"
      = some ["v1.products.id.get", "--id", "42"] ∧
    parseTokens (build_cli_from_spec productSpec)
        ["v1.products.id.get", "--id", "42"]
      = .ok ("v1.products.id.get", [("id", "42")]) ∧
    execute_request_wasm_core "http://host" "v1.products.id.get"
        [("id", "42")] productSpec
      = .ok { method := "GET", url := "http://host/v1/products/42",
              query := [], body := none } :=
  ⟨rfl, rfl, rfl, rfl⟩

/-! ## Claims C6 and C10 (history addressing) -/

/-- C6: for k below the buffer length, the non-negative index k
addresses the entry recorded k steps before the newest (index 0 is the
newest entry, the last of the list), and the negative index -(k+1)
addresses the same position of the same underlying buffer from the end. -/
theorem claim_C6 (h : List String) (k : Nat) (hk : k < h.length) :
    get_history_item h (k : Int) = h.get? (h.length - 1 - k) ∧
    get_history_item h (-(k + 1 : Int)) = h.get? (h.length - 1 - k) := by
  have hne : h.isEmpty = false := by
    cases h with
    | nil => simp at hk
    | cons a t => rfl
  have hlen : 0 < h.length := by
    cases h with
    | nil => simp at hk
    | cons a t => simp
  have ha : actualIndex h (k : Int) = (h.length : Int) - 1 - k := by
    unfold actualIndex
    rw [if_neg (by omega)]
  have hb : actualIndex h (-(k + 1 : Int)) = (h.length : Int) - (k + 1) := by
    unfold actualIndex
    rw [if_pos (by omega)]
    omega
  constructor
  · unfold get_history_item
    rw [if_neg (by simp [hne]), ha, if_pos (by exact ⟨by omega, by omega⟩)]
    congr 1
    omega
  · unfold get_history_item
    rw [if_neg (by simp [hne]), hb, if_pos (by exact ⟨by omega, by omega⟩)]
    congr 1
    omega

/-- C6 witness: on the concrete buffer a, b, c, index 1 and index -2
both return b, the entry one step before the newest. -/
theorem claim_C6_witness :
    get_history_item ["a", "b", "c"] (1 : Int) = ["a", "b", "c"].get? 1 ∧
    get_history_item ["a", "b", "c"] (-(2 : Int)) = ["a", "b", "c"].get? 1 :=
  claim_C6 ["a", "b", "c"] 1 (by decide)

/-- C10: get_history_item is total at its interface - none on the empty
buffer and on every index outside both valid ranges - and for every
position k below the length the non-negative index k and the negative
index -(k+1) agree and return an entry. -/
theorem claim_C10 (h : List String) (i : Int) :
    get_history_item [] i = none ∧
    (((h.length : Int) ≤ i ∨ i < -(h.length : Int)) → get_history_item h i = none) ∧
    (∀ k : Nat, k < h.length →
      get_history_item h (k : Int) = get_history_item h (-(k + 1 : Int)) ∧
      (get_history_item h (k : Int)).isSome = true) := by
  refine ⟨rfl, ?_, ?_⟩
  · intro hout
    unfold get_history_item
    by_cases he : h.isEmpty = true
    · rw [if_pos he]
    · rw [if_neg he, if_neg]
      intro hcon
      rcases hcon with ⟨h0, h1⟩
      unfold actualIndex at h0 h1
      by_cases hi : i < 0
      · rw [if_pos hi] at h0 h1
        omega
      · rw [if_neg hi] at h0 h1
        omega
  · intro k hk
    have hne : h.isEmpty = false := by
      cases h with
      | nil => simp at hk
      | cons a t => rfl
    have hlen : 0 < h.length := by
      cases h with
      | nil => simp at hk
      | cons a t => simp
    have hsome : ∀ n, n < h.length → (h.get? n).isSome = true := by
      intro n hn
      rw [List.get?_eq_getElem?, List.getElem?_eq_getElem hn]
      rfl
    have ha : actualIndex h (k : Int) = (h.length : Int) - 1 - k := by
      unfold actualIndex
      rw [if_neg (by omega)]
    have hb : actualIndex h (-(k + 1 : Int)) = (h.length : Int) - (k + 1) := by
      unfold actualIndex
      rw [if_pos (by omega)]
      omega
    have e1 : get_history_item h (k : Int) = h.get? (h.length - 1 - k) := by
      unfold get_history_item
      rw [if_neg (by simp [hne]), ha, if_pos (by exact ⟨by omega, by omega⟩)]
      congr 1
      omega
    have e2 : get_history_item h (-(k + 1 : Int)) = h.get? (h.length - 1 - k) := by
      unfold get_history_item
      rw [if_neg (by simp [hne]), hb, if_pos (by exact ⟨by omega, by omega⟩)]
      congr 1
      omega
    exact ⟨by rw [e1, e2], by rw [e1]; exact hsome _ (by omega)⟩

/-- C10 witness: on the buffer a, b the indices 0 and -1 agree and
return an entry, and index 5 is out of range. -/
theorem claim_C10_witness :
    (get_history_item ["a", "b"] (0 : Int) = get_history_item ["a", "b"] (-(1 : Int)) ∧
      (get_history_item ["a", "b"] (0 : Int)).isSome = true) ∧
    get_history_item ["a", "b"] (5 : Int) = none :=
  ⟨(claim_C10 ["a", "b"] 5).2.2 0 (by decide),
   (claim_C10 ["a", "b"] 5).2.1 (by decide)⟩

/-! ## Claim C7 (unbalanced quoting) -/

/-- C7 counterexample: on the unbalanced-quote line the tokenization
fails, and while the wasm session surfaces that as a tokenization error
without matching, the native REPL does pass the raw line onward: its
outcome is a parse error produced by matching the whole line as a single
token against the subcommands (the ReplStep type of the native loop has
no tokenization-error outcome at all). -/
theorem claim_C7_counterexample :
    shlexSplit "\"abc" = none ∧
    run_command_step (some demoGrammar) "\"abc" = .tokenizeError ∧
    repl_handle_line demoGrammar "\"abc"
      = .parseError (.unknownSubcommand "\"abc") :=
  ⟨rfl, rfl, rfl⟩

/-- C7 amended: when tokenization fails, the wasm session reports a
tokenization error and does not reach matching or dispatch, while the
native REPL falls back to treating the whole trimmed line as one token
and passes it to subcommand matching (yielding a parse error or, if the
raw line happens to name a subcommand, a dispatch); in both sessions the
loop continues - the native outcome is never the exit signal and both
step functions are total. -/
theorem claim_C7_amended (root : Cmd) (line buffer : String) :
    (shlexSplit line = none → run_command_step (some root) line = .tokenizeError) ∧
    (rustTrim buffer ≠ "" → rustTrim buffer ≠ "exit" → rustTrim buffer ≠ "quit" →
      rustTrim buffer ≠ "help" → shlexSplit (rustTrim buffer) = none →
      repl_handle_line root buffer ≠ .exitLoop ∧
      ((∃ e, repl_handle_line root buffer = .parseError e) ∨
       (∃ s m, repl_handle_line root buffer = .dispatch s m))) := by
  constructor
  · intro hs
    unfold run_command_step
    rw [hs]
  · intro h1 h2 h3 h4 h5
    have hrepl : repl_handle_line root buffer =
        match parseTokens root [rustTrim buffer] with
        | .ok sm => ReplStep.dispatch sm.1 sm.2
        | .error e => ReplStep.parseError e := by
      unfold repl_handle_line
      rw [if_neg h1, if_neg (by rw [not_or]; exact ⟨h2, h3⟩), if_neg h4, h5]
      rfl
    rcases hpt : parseTokens root [rustTrim buffer] with e | sm
    · rw [hpt] at hrepl
      refine ⟨?_, Or.inl ⟨e, hrepl⟩⟩
      rw [hrepl]
      intro hcon
      cases hcon
    · rw [hpt] at hrepl
      refine ⟨?_, Or.inr ⟨sm.1, sm.2, hrepl⟩⟩
      rw [hrepl]
      intro hcon
      cases hcon

/-- C7 witness: the amended claim at the concrete unbalanced line. -/
theorem claim_C7_witness :
    repl_handle_line demoGrammar "\"abc" ≠ .exitLoop ∧
    ((∃ e, repl_handle_line demoGrammar "\"abc" = .parseError e) ∨
     (∃ s m, repl_handle_line demoGrammar "\"abc" = .dispatch s m)) :=
  (claim_C7_amended demoGrammar "\"abc" "\"abc").2 (by decide) (by decide)
    (by decide) (by decide) (by decide)

/-! ## Claim C9 (the reserved body flag) -/

/-- C9 counterexample: an operation whose only parameter is a query
parameter named body and which declares no request body at all still
compiles to a node carrying a flag named body - the parameter loop of
the compiler is a second path producing that flag name. -/
theorem claim_C9_counterexample :
    ((build_cli_from_spec bodyParamSpec).subs.map (fun c => c.args.map CArg.name))
      = [["body"]] ∧
    declaresJsonBody bodyParamOp = false ∧
    bodyParamSpec.paths = [("/x", { get := some bodyParamOp })] :=
  ⟨rfl, rfl, rfl⟩

/-- C9 amended: every compiled node originates in an operation of the
document, its flags are the parameter flags followed by the body flag,
and provided none of the operation's inline parameters is itself named
body, the node carries a flag named body exactly when the operation
declares an inline JSON request body. -/
theorem claim_C9_amended (spec : OpenAPIV3) (node : Cmd)
    (hmem : node ∈ (build_cli_from_spec spec).subs) :
    ∃ path item method op,
      (path, item) ∈ spec.paths ∧
      (method, some op) ∈ methodsOf item ∧
      node.name = subcommandName path method ∧
      node.args = paramArgs op ++ bodyArgs op ∧
      ((∀ q ∈ inlineParams op, q.name ≠ "body") →
        node.args.any (fun a => a.name = "body") = declaresJsonBody op) := by
  have hmem2 : node ∈ spec.paths.flatMap
      (fun pi => add_operations_as_subcommands pi.1 pi.2) := hmem
  rw [List.mem_flatMap] at hmem2
  rcases hmem2 with ⟨pi, hpi, hnode⟩
  unfold add_operations_as_subcommands at hnode
  rw [List.mem_filterMap] at hnode
  rcases hnode with ⟨mo, hmo, hopt⟩
  rcases hopm : mo.2 with _ | op
  · rw [hopm] at hopt
    cases hopt
  · rw [hopm] at hopt
    rw [Option.map_some'] at hopt
    injection hopt with hopt
    refine ⟨pi.1, pi.2, mo.1, op, hpi, ?_, ?_, ?_, ?_⟩
    · rw [← hopm]
      exact hmo
    · rw [← hopt]
    · rw [← hopt]
    · intro hq
      rw [← hopt]
      show (paramArgs op ++ bodyArgs op).any (fun a => a.name = "body")
        = declaresJsonBody op
      rw [List.any_append]
      have hpa : (paramArgs op).any (fun a => a.name = "body") = false := by
        rw [List.any_eq_false]
        intro a ha
        unfold paramArgs at ha
        rw [List.mem_filterMap] at ha
        rcases ha with ⟨pr, hpr, hsome⟩
        rcases pr with p | r
        · injection hsome with hsome
          rw [← hsome]
          simp only [decide_eq_true_eq]
          apply hq
          unfold inlineParams
          rw [List.mem_filterMap]
          exact ⟨.data p, hpr, rfl⟩
        · cases hsome
      have hba : (bodyArgs op).any (fun a => a.name = "body") = declaresJsonBody op := by
        unfold bodyArgs declaresJsonBody
        rcases op.request_body with _ | rb
        · rfl
        · rcases rb with rb | r
          · by_cases hc : "application/json" ∈ rb.contentTypes
            · simp [hc]
            · simp [hc]
          · rfl
      rw [hpa, hba, Bool.false_or]

/-- C9 witness: the amended claim at the products document - the one
compiled node has no flag named body and its operation declares no JSON
body. -/
theorem claim_C9_witness :
    ∃ path item method op,
      (path, item) ∈ productSpec.paths ∧
      (method, some op) ∈ methodsOf item ∧
      ((build_cli_from_spec productSpec).subs.head?.getD ⟨"", none, [], []⟩).name
        = subcommandName path method ∧
      ((build_cli_from_spec productSpec).subs.head?.getD ⟨"", none, [], []⟩).args
        = paramArgs op ++ bodyArgs op ∧
      ((∀ q ∈ inlineParams op, q.name ≠ "body") →
        ((build_cli_from_spec productSpec).subs.head?.getD ⟨"", none, [], []⟩).args.any
          (fun a => a.name = "body") = declaresJsonBody op) :=
  claim_C9_amended productSpec _ (List.mem_singleton.mpr rfl)



/-! ## Claim C8 (query coercion) -/

theorem lookup_append_split {α β : Type} [BEq α] (l1 l2 : List (α × β)) (k : α) :
    (l1 ++ l2).lookup k =
      match l1.lookup k with
      | some v => some v
      | none => l2.lookup k := by
  induction l1 with
  | nil => rfl
  | cons a t ih =>
    rcases a with ⟨a1, a2⟩
    by_cases hk : (k == a1) = true
    · simp [List.lookup, hk]
    · rw [Bool.not_eq_true] at hk
      simp [List.lookup, hk, ih]

theorem lookup_eq_none_forbids {α β : Type} [BEq α] [LawfulBEq α]
    (l : List (α × β)) (k : α) (h : l.lookup k = none) :
    ∀ kv ∈ l, kv.1 ≠ k := by
  induction l with
  | nil =>
    intro kv hkv
    cases hkv
  | cons a t ih =>
    intro kv hkv
    rcases a with ⟨a1, a2⟩
    by_cases hk : (k == a1) = true
    · simp [List.lookup, hk] at h
    · rw [List.mem_cons] at hkv
      rcases hkv with rfl | hkv
      · intro hcon
        have ha1 : a1 = k := hcon
        rw [ha1] at hk
        simp at hk
      · rw [Bool.not_eq_true] at hk
        simp only [List.lookup, hk] at h
        exact ih h kv hkv

theorem lookup_map_overwrite (m : List (String × JsonVal)) (k : String)
    (v w : JsonVal) (h : m.lookup k = some w) :
    (m.map (fun p => if p.1 = k then (k, v) else p)).lookup k = some v := by
  induction m with
  | nil => cases h
  | cons a t ih =>
    rcases a with ⟨a1, a2⟩
    by_cases ha : a1 = k
    · subst ha
      simp only [List.map_cons]
      rw [if_pos trivial]
      simp [List.lookup]
    · have hk : (k == a1) = false := by
        rw [beq_eq_false_iff_ne]
        intro hcon
        exact ha hcon.symm
      simp only [List.lookup, hk] at h
      simp only [List.map_cons]
      rw [if_neg ha]
      simp [List.lookup, hk, ih h]

theorem lookup_insertJson_self (m : List (String × JsonVal)) (k : String) (v : JsonVal) :
    (insertJson m k v).lookup k = some v := by
  unfold insertJson
  rcases hm : m.lookup k with _ | w
  · rw [if_neg (by simp)]
    rw [lookup_append_split, hm]
    simp [List.lookup]
  · rw [if_pos (by simp)]
    exact lookup_map_overwrite m k v w hm

theorem lookup_insertJson_ne (m : List (String × JsonVal)) (k k2 : String)
    (v : JsonVal) (h : k2 ≠ k) :
    (insertJson m k v).lookup k2 = m.lookup k2 := by
  have hk2k : (k2 == k) = false := by
    rw [beq_eq_false_iff_ne]
    exact h
  unfold insertJson
  by_cases hs : (m.lookup k).isSome = true
  · rw [if_pos hs]
    clear hs
    induction m with
    | nil => rfl
    | cons a t ih =>
      rcases a with ⟨a1, a2⟩
      simp only [List.map_cons]
      by_cases ha : a1 = k
      · subst ha
        simp only [List.map_cons]
        rw [if_pos trivial]
        have hk2a : (k2 == a1) = false := by
          rw [beq_eq_false_iff_ne]
          exact h
        simp [List.lookup, hk2a, ih]
      · rw [if_neg ha]
        by_cases hk2a : (k2 == a1) = true
        · simp [List.lookup, hk2a]
        · rw [Bool.not_eq_true] at hk2a
          simp [List.lookup, hk2a, ih]
  · rw [if_neg hs]
    rw [lookup_append_split]
    rcases hm2 : m.lookup k2 with _ | w2
    · simp [List.lookup, hk2k]
    · rfl

theorem merge_lookup_of_unbound (pairs : List (String × String))
    (m : List (String × JsonVal)) (k : String)
    (h : ∀ kv ∈ pairs, kv.1 ≠ k) :
    (mergeQueryParams m pairs).lookup k = m.lookup k := by
  induction pairs generalizing m with
  | nil => rfl
  | cons a t ih =>
    have hstep : mergeQueryParams m (a :: t)
        = mergeQueryParams (insertJson m a.1 (coerceQueryValue a.2)) t := rfl
    rw [hstep, ih _ (fun kv hkv => h kv (List.mem_cons_of_mem a hkv))]
    exact lookup_insertJson_ne _ _ _ _ (fun hcon =>
      h a (List.mem_cons_self a t) (by rw [hcon]))

theorem insertAssoc_inv (m : List (String × String)) (k v : String)
    (P : String × String → Prop) (hm : ∀ kv ∈ m, P kv) (hkv : P (k, v)) :
    ∀ kv ∈ insertAssoc m k v, P kv := by
  unfold insertAssoc
  by_cases hs : (m.lookup k).isSome = true
  · rw [if_pos hs]
    intro kv hkv2
    rw [List.mem_map] at hkv2
    rcases hkv2 with ⟨orig, ho, heq⟩
    by_cases h1 : orig.1 = k
    · rw [show (if orig.1 = k then (k, v) else orig) = (k, v) from if_pos h1] at heq
      rw [← heq]
      exact hkv
    · rw [show (if orig.1 = k then (k, v) else orig) = orig from if_neg h1] at heq
      rw [← heq]
      exact hm orig ho
  · rw [if_neg hs]
    intro kv hkv2
    rw [List.mem_append] at hkv2
    rcases hkv2 with hkv2 | hkv2
    · exact hm kv hkv2
    · rw [List.mem_singleton] at hkv2
      rw [hkv2]
      exact hkv

theorem processParamStep_inv (bound : List (String × String))
    (fpqp : List Char × List (String × String)) (pr : Referenceable OasParameter)
    (hm : ∀ kv ∈ fpqp.2, bound.lookup kv.1 = some kv.2) :
    ∀ kv ∈ (processParamStep bound fpqp pr).2, bound.lookup kv.1 = some kv.2 := by
  rcases pr with p | r
  · rcases hv : List.lookup p.name bound with _ | v
    · simpa only [processParamStep, hv] using hm
    · rcases hin : p._in with _ | _ | _ | _
      · simpa only [processParamStep, hv, hin] using hm
      · have hins := insertAssoc_inv fpqp.2 p.name v
          (fun kv => List.lookup kv.1 bound = some kv.2) hm hv
        simpa only [processParamStep, hv, hin] using hins
      · simpa only [processParamStep, hv, hin] using hm
      · simpa only [processParamStep, hv, hin] using hm
  · simpa only [processParamStep] using hm

theorem processParams_fold_inv (params : List (Referenceable OasParameter))
    (bound : List (String × String)) (start : List Char × List (String × String))
    (hstart : ∀ kv ∈ start.2, bound.lookup kv.1 = some kv.2) :
    ∀ kv ∈ (params.foldl (processParamStep bound) start).2,
      bound.lookup kv.1 = some kv.2 := by
  induction params generalizing start with
  | nil => exact hstart
  | cons pr rest ih =>
    exact ih (processParamStep bound start pr)
      (processParamStep_inv bound start pr hstart)

/-- C8 counterexample: the dispatcher's query map carries the bound
value 42 as the raw string 42 - the request leaves with the value
untouched - although the coercion rule the claim states maps 42 to a
number, not a string. -/
theorem claim_C8_counterexample :
    execute_request_wasm_core "http://host" "v1.items.get" [("count", "42")] countSpec
      = .ok { method := "GET", url := "http://host/v1/items?count=42",
              query := [("count", "42")], body := none } ∧
    coerceQueryValue "42" = JsonVal.num "42" ∧
    JsonVal.str "42" ≠ JsonVal.num "42" :=
  ⟨rfl, rfl, by decide⟩

/-- C8 amended: the request dispatcher performs no coercion - every
entry of its query map is exactly the bound string of that parameter
name - and the number-boolean-string coercion the claim describes is
applied on the receiving side by the router's parameter extraction,
which binds each query key to the coerced form of its last occurrence. -/
theorem claim_C8_amended :
    (∀ (base sub : String) (bound : List (String × String)) (spec : OpenAPIV3)
        (r : ResolvedRequest),
      execute_request_wasm_core base sub bound spec = .ok r →
      ∀ kv ∈ r.query, bound.lookup kv.1 = some kv.2) ∧
    (∀ (merged : List (String × JsonVal)) (pairs : List (String × String))
        (k v : String),
      pairs.reverse.lookup k = some v →
      (mergeQueryParams merged pairs).lookup k = some (coerceQueryValue v)) := by
  constructor
  · intro base sub bound spec r hok kv hkv
    unfold execute_request_wasm_core at hok
    split at hok
    next e heq => exact absurd hok (by simp)
    next pi heq =>
      split at hok
      next heq2 => exact absurd hok (by simp)
      next op heq2 =>
        have hr : r.query = (processParams op bound pi.1.toList).2 := by
          injection hok with hok2
          rw [← hok2]
        rw [hr] at hkv
        exact processParams_fold_inv (op.parameters.getD []) bound
          (pi.1.toList, []) (by intro kv2 hkv2; cases hkv2) kv hkv
  · intro merged pairs k v hrev
    induction pairs generalizing merged with
    | nil => simp [List.lookup] at hrev
    | cons a t ih =>
      have hstep : mergeQueryParams merged (a :: t)
          = mergeQueryParams (insertJson merged a.1 (coerceQueryValue a.2)) t := rfl
      rw [hstep]
      rw [List.reverse_cons, lookup_append_split] at hrev
      rcases hl : t.reverse.lookup k with _ | w
      · rw [hl] at hrev
        rcases a with ⟨a1, a2⟩
        have hka : (k == a1) = true ∧ a2 = v := by
          by_cases hk : (k == a1) = true
          · simp only [List.lookup, hk] at hrev
            injection hrev with hrev2
            exact ⟨hk, hrev2⟩
          · rw [Bool.not_eq_true] at hk
            simp [List.lookup, hk] at hrev
        rcases hka with ⟨hk, hv⟩
        have ha1 : a1 = k := (eq_of_beq hk).symm
        have hforb : ∀ kv ∈ t, kv.1 ≠ k := by
          intro kv hkv
          exact lookup_eq_none_forbids t.reverse k hl kv (List.mem_reverse.mpr hkv)
        rw [merge_lookup_of_unbound t _ k hforb, ← hv, ← ha1]
        exact lookup_insertJson_self merged a1 (coerceQueryValue a2)
      · rw [hl] at hrev
        injection hrev with hwv
        exact ih _ (by rw [hl, hwv])

/-- C8 witness: the amended claim at concrete inputs - the router's
merge coerces the bound TRUE, and the dispatcher's concrete query map
for scenario items carries exactly the bound raw string. -/
theorem claim_C8_witness :
    (mergeQueryParams [] [("count", "42"), ("flag", "TRUE")]).lookup "flag"
      = some (coerceQueryValue "TRUE") ∧
    ∀ kv ∈ ({ method := "GET", url := "http://host/v1/items?count=42",
              query := [("count", "42")], body := none } : ResolvedRequest).query,
      [("count", "42")].lookup kv.1 = some kv.2 :=
  ⟨claim_C8_amended.2 [] [("count", "42"), ("flag", "TRUE")] "flag" "TRUE" (by decide),
   claim_C8_amended.1 "http://host" "v1.items.get" [("count", "42")] countSpec _ rfl⟩

/-! ## Claim C5 (history bound) -/

theorem recordHistory_step (h : List String) (l : String)
    (ht : rustTrim l ≠ "") (hcond : h = [] ∨ h.getLast? ≠ some (rustTrim l))
    (hlen : h.length ≤ 1000) :
    recordHistory h l
      = (h ++ [rustTrim l]).drop ((h ++ [rustTrim l]).length - 1000) := by
  unfold recordHistory
  rw [if_pos ⟨ht, hcond⟩]
  by_cases hover : 1000 < (h ++ [rustTrim l]).length
  · rw [if_pos hover]
    have hk : (h ++ [rustTrim l]).length - 1000 = 1 := by
      rw [List.length_append]
      rw [List.length_append] at hover
      simp only [List.length_singleton] at hover ⊢
      omega
    rw [hk, ← List.drop_one]
  · rw [if_neg hover]
    have hk : (h ++ [rustTrim l]).length - 1000 = 0 := by omega
    rw [hk, List.drop_zero]

theorem getLast?_drop_lt (l : List String) (k : Nat) (hk : k < l.length) :
    (l.drop k).getLast? = l.getLast? := by
  induction k generalizing l with
  | zero => rw [List.drop_zero]
  | succ n ih =>
    cases l with
    | nil => simp at hk
    | cons a t =>
      have ht : t ≠ [] := by
        intro hcon
        rw [hcon] at hk
        simp at hk
      cases t with
      | nil => exact absurd rfl ht
      | cons b t2 =>
        rw [List.drop_succ_cons, List.getLast?_cons_cons]
        exact ih (b :: t2) (by simpa using hk)

theorem takeLast_append_takeLast (X R : List String) :
    ((X.drop (X.length - 1000)) ++ R).drop
        (((X.drop (X.length - 1000)) ++ R).length - 1000)
      = (X ++ R).drop ((X ++ R).length - 1000) := by
  by_cases hx : X.length ≤ 1000
  · rw [show X.length - 1000 = 0 from by omega, List.drop_zero]
  · have hsplit : X.take (X.length - 1000) ++ X.drop (X.length - 1000) = X :=
      List.take_append_drop _ X
    have hlenA : (X.drop (X.length - 1000)).length = 1000 := by
      rw [List.length_drop]
      omega
    have hlenT : (X.take (X.length - 1000)).length = X.length - 1000 := by
      rw [List.length_take]
      omega
    have hL : ((X.drop (X.length - 1000)) ++ R).length - 1000 = R.length := by
      rw [List.length_append, hlenA]
      omega
    have hRamt : (X ++ R).length - 1000
        = (X.take (X.length - 1000)).length + R.length := by
      rw [List.length_append, hlenT]
      omega
    rw [hL, hRamt]
    have h2 : X ++ R
        = List.take (X.length - 1000) X ++ (List.drop (X.length - 1000) X ++ R) := by
      rw [← List.append_assoc, hsplit]
    rw [h2, List.drop_append]

theorem recordHistory_le (h : List String) (l : String)
    (hlen : h.length ≤ 1000) : (recordHistory h l).length ≤ 1000 := by
  unfold recordHistory
  by_cases hc : rustTrim l ≠ "" ∧ (h = [] ∨ h.getLast? ≠ some (rustTrim l))
  · rw [if_pos hc]
    by_cases hover : 1000 < (h ++ [rustTrim l]).length
    · rw [if_pos hover]
      rw [List.length_tail, List.length_append]
      rw [List.length_append] at hover
      simp only [List.length_singleton] at hover ⊢
      omega
    · rw [if_neg hover]
      omega
  · rw [if_neg hc]
    exact hlen

theorem foldl_recordHistory_le (lines : List String) :
    ∀ h : List String, h.length ≤ 1000 →
      (lines.foldl recordHistory h).length ≤ 1000 := by
  induction lines with
  | nil =>
    intro h hh
    exact hh
  | cons l rest ih =>
    intro h hh
    exact ih (recordHistory h l) (recordHistory_le h l hh)

theorem foldl_recordHistory_eq (lines : List String) :
    ∀ h : List String, h.length ≤ 1000 →
      (∀ l ∈ lines, rustTrim l ≠ "") →
      List.Chain' (· ≠ ·) ((h.getLast?.elim [] (fun x => [x])) ++ lines.map rustTrim) →
      lines.foldl recordHistory h
        = (h ++ lines.map rustTrim).drop ((h ++ lines.map rustTrim).length - 1000) := by
  induction lines with
  | nil =>
    intro h hh hne hch
    simp only [List.foldl_nil, List.map_nil, List.append_nil]
    rw [show h.length - 1000 = 0 from by omega, List.drop_zero]
  | cons l rest ih =>
    intro h hh hne hch
    have ht : rustTrim l ≠ "" := hne l (List.mem_cons_self l rest)
    have hcond : h = [] ∨ h.getLast? ≠ some (rustTrim l) := by
      rcases hlast : h.getLast? with _ | x
      · left
        cases h with
        | nil => rfl
        | cons a t => simp [List.getLast?_eq_getLast] at hlast
      · right
        rw [hlast] at hch
        simp only [Option.elim, List.map_cons, List.cons_append,
          List.nil_append] at hch
        rw [List.chain'_cons] at hch
        intro hcon
        injection hcon with hcon2
        exact hch.1 hcon2
    have hstep : recordHistory h l
        = (h ++ [rustTrim l]).drop ((h ++ [rustTrim l]).length - 1000) :=
      recordHistory_step h l ht hcond hh
    have hlen2 : (recordHistory h l).length ≤ 1000 := recordHistory_le h l hh
    have hlast2 : (recordHistory h l).getLast? = some (rustTrim l) := by
      rw [hstep]
      rw [getLast?_drop_lt _ _ (by
        rw [List.length_append]
        simp only [List.length_singleton]
        omega)]
      exact List.getLast?_concat _
    have hch2 : List.Chain' (· ≠ ·)
        (((recordHistory h l).getLast?.elim [] (fun x => [x])) ++ rest.map rustTrim) := by
      rw [hlast2]
      simp only [Option.elim, List.cons_append, List.nil_append]
      rcases hlast : h.getLast? with _ | x
      · have hnil : h = [] := by
          cases h with
          | nil => rfl
          | cons a t => simp [List.getLast?_eq_getLast] at hlast
        rw [hnil] at hch
        simpa using hch
      · rw [hlast] at hch
        simp only [Option.elim, List.map_cons, List.cons_append,
          List.nil_append] at hch
        rw [List.chain'_cons] at hch
        exact hch.2
    have hne2 : ∀ l2 ∈ rest, rustTrim l2 ≠ "" :=
      fun l2 hl2 => hne l2 (List.mem_cons_of_mem l hl2)
    rw [List.foldl_cons]
    rw [ih (recordHistory h l) hlen2 hne2 hch2]
    rw [hstep]
    rw [takeLast_append_takeLast (h ++ [rustTrim l]) (rest.map rustTrim)]
    simp only [List.map_cons, List.append_assoc, List.cons_append, List.nil_append]

/-- C5: after inserting more than 1000 lines whose trimmed forms are
non-empty and pairwise distinct into the empty history, the buffer is
exactly the most recent 1000 trimmed entries in insertion order, its
length is exactly 1000, and no intermediate state ever exceeds the
capacity 1000 (the oldest entry is dropped on overflow). -/
theorem claim_C5 (lines : List String)
    (hne : ∀ l ∈ lines, rustTrim l ≠ "")
    (hnd : (lines.map rustTrim).Nodup)
    (hlen : 1000 < lines.length) :
    lines.foldl recordHistory []
      = (lines.map rustTrim).drop (lines.length - 1000) ∧
    (lines.foldl recordHistory []).length = 1000 ∧
    ∀ k, ((lines.take k).foldl recordHistory []).length ≤ 1000 := by
  have hmain : lines.foldl recordHistory []
      = (lines.map rustTrim).drop (lines.length - 1000) := by
    have hch : List.Chain' (· ≠ ·)
        ((([] : List String).getLast?.elim [] (fun x => [x])) ++ lines.map rustTrim) := by
      simp only [List.getLast?_nil, Option.elim, List.nil_append]
      exact List.Pairwise.chain' hnd
    rw [foldl_recordHistory_eq lines [] (by simp) hne hch]
    simp only [List.nil_append]
    rw [List.length_map]
  refine ⟨hmain, ?_, ?_⟩
  · rw [hmain, List.length_drop, List.length_map]
    omega
  · intro k
    exact foldl_recordHistory_le (lines.take k) [] (by simp)

/-- The 1001 pairwise-distinct single-character-run lines of the C5
witness. -/
def runLines : List String :=
  (List.range 1001).map (fun n => String.mk (List.replicate (n + 1) 'a'))

theorem rustTrim_runLine (n : Nat) :
    rustTrim (String.mk (List.replicate (n + 1) 'a'))
      = String.mk (List.replicate (n + 1) 'a') := by
  unfold rustTrim
  have hdrop : ∀ m : Nat, (List.replicate (m + 1) 'a').dropWhile isRustWS
      = List.replicate (m + 1) 'a' := by
    intro m
    rw [List.replicate_succ, List.dropWhile_cons]
    rw [if_neg (by decide)]
  have htl : (String.mk (List.replicate (n + 1) 'a')).toList
      = List.replicate (n + 1) 'a' := rfl
  rw [htl, hdrop, List.reverse_replicate, hdrop, List.reverse_replicate]

theorem runLines_trim_ne (l : String) (hl : l ∈ runLines) : rustTrim l ≠ "" := by
  unfold runLines at hl
  rw [List.mem_map] at hl
  rcases hl with ⟨n, hn, rfl⟩
  rw [rustTrim_runLine]
  intro hcon
  have : List.replicate (n + 1) 'a' = [] := congrArg String.data hcon
  simp at this

theorem runLines_nodup : (runLines.map rustTrim).Nodup := by
  have hmap : runLines.map rustTrim = runLines := by
    unfold runLines
    rw [List.map_map]
    apply List.map_congr_left
    intro n hn
    exact rustTrim_runLine n
  rw [hmap]
  unfold runLines
  apply List.Nodup.map
  · intro n m hnm
    have hd : List.replicate (n + 1) 'a' = List.replicate (m + 1) 'a' :=
      congrArg String.data hnm
    have hlen : n + 1 = m + 1 := by
      have := congrArg List.length hd
      simpa using this
    omega
  · exact List.nodup_range 1001

theorem runLines_length : 1000 < runLines.length := by
  unfold runLines
  rw [List.length_map, List.length_range]
  omega

/-- C5 witness: the claim applied to the 1001 distinct lines. -/
theorem claim_C5_witness :
    runLines.foldl recordHistory []
      = (runLines.map rustTrim).drop (runLines.length - 1000) ∧
    (runLines.foldl recordHistory []).length = 1000 ∧
    ∀ k, ((runLines.take k).foldl recordHistory []).length ≤ 1000 :=
  claim_C5 runLines runLines_trim_ne runLines_nodup runLines_length


/-! ## Claims C3 and C4 (completion engine) -/

theorem escDouble_length (c : Char) : (escDouble c).length ≤ 2 := by
  unfold escDouble
  split
  · simp
  · split
    · simp
    · simp

theorem shlexGo_token_le :
    ∀ (mode : ShMode) (cur : Option (List Char)) (l : List Char) (ts : List String),
      shlexGo mode cur l = some ts →
      ∀ t ∈ ts, t.toList.length ≤ (cur.elim 0 List.length) + l.length := by
  intro mode cur l
  induction mode, cur, l using shlexGo.induct
  case case1 cur =>
    intro ts h t ht
    rcases cur with _ | w
    · simp only [shlexGo, Option.elim] at h
      injection h with h2
      rw [← h2] at ht
      cases ht
    · simp only [shlexGo, Option.elim] at h
      injection h with h2
      rw [← h2] at ht
      rw [List.mem_singleton] at ht
      subst ht
      show w.length ≤ w.length + 0
      omega
  case case2 cur =>
    intro ts h t ht
    simp only [shlexGo] at h
    injection h with h2
    rw [← h2] at ht
    cases ht
  case case3 mode cur hn hc =>
    intro ts h t ht
    cases mode
    · exact absurd rfl hn
    · simp only [shlexGo] at h
      exact Option.noConfusion h
    · simp only [shlexGo] at h
      exact Option.noConfusion h
    · exact absurd rfl hc
  case case4 cur rest ih =>
    intro ts h t ht
    unfold shlexGo at h
    try dsimp only [] at h
    rw [if_pos rfl] at h
    have := ih ts h t ht
    rcases cur with _ | w
    all_goals try simp only [Option.map_none', Option.map_some', Option.getD, Option.elim,
        List.length_append, List.length_singleton, List.length_cons,
        List.length_nil, List.nil_append] at this ⊢
    all_goals omega
  case case5 cur c rest hne ih =>
    intro ts h t ht
    unfold shlexGo at h
    try dsimp only [] at h
    rw [if_neg hne] at h
    have := ih ts h t ht
    rcases cur with _ | w
    all_goals try simp only [Option.map_none', Option.map_some', Option.getD, Option.elim,
        List.length_append, List.length_singleton, List.length_cons,
        List.length_nil, List.nil_append] at this ⊢
    all_goals omega
  case case6 cur rest ih =>
    intro ts h t ht
    unfold shlexGo at h
    try dsimp only [] at h
    rw [if_pos rfl] at h
    have := ih ts h t ht
    rcases cur with _ | w
    all_goals try simp only [Option.map_none', Option.map_some', Option.getD, Option.elim,
        List.length_append, List.length_singleton, List.length_cons,
        List.length_nil, List.nil_append] at this ⊢
    all_goals omega
  case case7 cur c rest hne ih =>
    intro ts h t ht
    unfold shlexGo at h
    try dsimp only [] at h
    rw [if_neg hne] at h
    have := ih ts h t ht
    rcases cur with _ | w
    all_goals try simp only [Option.map_none', Option.map_some', Option.getD, Option.elim,
        List.length_append, List.length_singleton, List.length_cons,
        List.length_nil, List.nil_append] at this ⊢
    all_goals omega
  case case8 cur rest ih =>
    intro ts h t ht
    unfold shlexGo at h
    try dsimp only [] at h
    rw [if_pos rfl] at h
    have := ih ts h t ht
    rcases cur with _ | w
    all_goals try simp only [Option.map_none', Option.map_some', Option.getD, Option.elim,
        List.length_append, List.length_singleton, List.length_cons,
        List.length_nil, List.nil_append] at this ⊢
    all_goals omega
  case case9 cur hne =>
    intro ts h t ht
    unfold shlexGo at h
    try dsimp only [] at h
    rw [if_neg hne, if_pos rfl] at h
    try dsimp only [] at h
    exact Option.noConfusion h
  case case10 cur c rest hne ih =>
    intro ts h t ht
    unfold shlexGo at h
    try dsimp only [] at h
    rw [if_neg hne, if_pos rfl] at h
    try dsimp only [] at h
    have := ih ts h t ht
    have hesc := escDouble_length c
    rcases cur with _ | w
    all_goals try simp only [Option.map_none', Option.map_some', Option.getD, Option.elim,
        List.length_append, List.length_singleton, List.length_cons,
        List.length_nil, List.nil_append] at this ⊢
    all_goals omega
  case case11 cur c rest hne1 hne2 ih =>
    intro ts h t ht
    unfold shlexGo at h
    try dsimp only [] at h
    rw [if_neg hne1, if_neg hne2] at h
    have := ih ts h t ht
    rcases cur with _ | w
    all_goals try simp only [Option.map_none', Option.map_some', Option.getD, Option.elim,
        List.length_append, List.length_singleton, List.length_cons,
        List.length_nil, List.nil_append] at this ⊢
    all_goals omega
  case case12 c rest hws w ih =>
    intro ts h t ht
    unfold shlexGo at h
    try dsimp only [] at h
    rw [if_pos hws] at h
    try dsimp only [] at h
    rcases hinner : shlexGo .normal none rest with _ | ts2
    · rw [hinner] at h
      exact Option.noConfusion h
    · rw [hinner] at h
      simp only [Option.map_some'] at h
      injection h with h2
      rw [← h2] at ht
      rw [List.mem_cons] at ht
      rcases ht with rfl | ht
      · show w.length ≤ w.length + (c :: rest).length
        omega
      · have := ih ts2 hinner t ht
        try simp only [Option.map_none', Option.map_some', Option.getD, Option.elim,
        List.length_append, List.length_singleton, List.length_cons,
        List.length_nil, List.nil_append] at this ⊢
        omega
  case case13 c rest hws ih =>
    intro ts h t ht
    unfold shlexGo at h
    try dsimp only [] at h
    rw [if_pos hws] at h
    try dsimp only [] at h
    have := ih ts h t ht
    try simp only [Option.map_none', Option.map_some', Option.getD, Option.elim,
        List.length_append, List.length_singleton, List.length_cons,
        List.length_nil, List.nil_append] at this ⊢
    omega
  case case14 cur c rest hws hcm ih =>
    intro ts h t ht
    unfold shlexGo at h
    try dsimp only [] at h
    rw [if_neg hws, if_pos hcm] at h
    have := ih ts h t ht
    rcases cur with _ | w
    all_goals try simp only [Option.map_none', Option.map_some', Option.getD, Option.elim,
        List.length_append, List.length_singleton, List.length_cons,
        List.length_nil, List.nil_append] at this ⊢
    all_goals omega
  case case15 cur rest hws hcm ih =>
    intro ts h t ht
    unfold shlexGo at h
    try dsimp only [] at h
    rw [if_neg hws, if_neg hcm, if_pos rfl] at h
    have := ih ts h t ht
    rcases cur with _ | w
    all_goals try simp only [Option.map_none', Option.map_some', Option.getD, Option.elim,
        List.length_append, List.length_singleton, List.length_cons,
        List.length_nil, List.nil_append] at this ⊢
    all_goals omega
  case case16 cur rest hws hcm hne ih =>
    intro ts h t ht
    unfold shlexGo at h
    try dsimp only [] at h
    rw [if_neg hws, if_neg hcm, if_neg hne, if_pos rfl] at h
    have := ih ts h t ht
    rcases cur with _ | w
    all_goals try simp only [Option.map_none', Option.map_some', Option.getD, Option.elim,
        List.length_append, List.length_singleton, List.length_cons,
        List.length_nil, List.nil_append] at this ⊢
    all_goals omega
  case case17 cur hws hcm hne1 hne2 =>
    intro ts h t ht
    unfold shlexGo at h
    try dsimp only [] at h
    rw [if_neg hws, if_neg hcm, if_neg hne1, if_neg hne2, if_pos rfl] at h
    try dsimp only [] at h
    exact Option.noConfusion h
  case case18 cur c rest hws hcm hne1 hne2 ih =>
    intro ts h t ht
    unfold shlexGo at h
    try dsimp only [] at h
    rw [if_neg hws, if_neg hcm, if_neg hne1, if_neg hne2, if_pos rfl] at h
    try dsimp only [] at h
    have := ih ts h t ht
    have hif : (if c = '\n' then ([] : List Char) else [c]).length ≤ 1 := by
      split
      · simp
      · simp
    rcases cur with _ | w
    all_goals try simp only [Option.map_none', Option.map_some', Option.getD, Option.elim,
        List.length_append, List.length_singleton, List.length_cons,
        List.length_nil, List.nil_append] at this ⊢
    all_goals omega
  case case19 cur c rest hws hcm hne1 hne2 hne3 ih =>
    intro ts h t ht
    unfold shlexGo at h
    try dsimp only [] at h
    rw [if_neg hws, if_neg hcm, if_neg hne1, if_neg hne2, if_neg hne3] at h
    have := ih ts h t ht
    rcases cur with _ | w
    all_goals try simp only [Option.map_none', Option.map_some', Option.getD, Option.elim,
        List.length_append, List.length_singleton, List.length_cons,
        List.length_nil, List.nil_append] at this ⊢
    all_goals omega

theorem splitWSGo_token_le :
    ∀ (l : List Char) (cur : Option (List Char)) (w : List Char),
      w ∈ splitWSGo cur l → w.length ≤ (cur.elim 0 List.length) + l.length := by
  intro l
  induction l with
  | nil =>
    intro cur w hw
    rcases cur with _ | u
    · cases hw
    · simp only [splitWSGo, Option.elim] at hw
      rw [List.mem_singleton] at hw
      rw [hw]
      simp [Option.elim]
  | cons c rest ih =>
    intro cur w hw
    simp only [splitWSGo] at hw
    by_cases hws : isRustWS c = true
    · rw [if_pos hws] at hw
      rcases cur with _ | u
      · have := ih none w hw
        simp only [Option.elim] at this ⊢
        simp only [List.length_cons]
        omega
      · rw [List.mem_cons] at hw
        rcases hw with rfl | hw
        · simp only [Option.elim, List.length_cons]
          omega
        · have := ih none w hw
          simp only [Option.elim, List.length_cons] at this ⊢
          omega
    · rw [if_neg hws] at hw
      have := ih (some (cur.getD [] ++ [c])) w hw
      rcases cur with _ | u
      all_goals try simp only [Option.getD, Option.elim, List.length_append,
        List.length_singleton, List.length_cons, List.length_nil,
        List.nil_append] at this ⊢
      all_goals omega

theorem tokensOf_token_le (l : List Char) (t : String) (ht : t ∈ tokensOf l) :
    t.toList.length ≤ l.length := by
  unfold tokensOf at ht
  rcases hsp : shlexGo .normal none l with _ | ts
  · rw [hsp] at ht
    rw [List.mem_map] at ht
    rcases ht with ⟨w, hw, rfl⟩
    have := splitWSGo_token_le l none w hw
    simp only [Option.elim] at this
    show w.length ≤ l.length
    omega
  · rw [hsp] at ht
    have := shlexGo_token_le .normal none l ts hsp t ht
    simp only [Option.elim] at this
    omega


theorem startsWithStr_empty (v : String) : startsWithStr v "" = true := by
  unfold startsWithStr
  show ([] : List Char).isPrefixOf v.toList = true
  cases v.toList
  · rfl
  · rfl

theorem mem_find_value_suggestions (arg : CArg) (cw : String) (s e : Nat)
    (sg : Suggestion) (h : sg ∈ find_value_suggestions arg cw s e) :
    startsWithStr sg.value cw = true := by
  unfold find_value_suggestions at h
  rw [List.mem_filterMap] at h
  rcases h with ⟨pv, hpv, hsome⟩
  by_cases hc : startsWithStr pv.1 cw = true
  · rw [if_pos hc] at hsome
    injection hsome with h2
    rw [← h2]
    exact hc
  · rw [if_neg hc] at hsome
    cases hsome

theorem mem_longSugg (cw : String) (s e : Nat) (acc : List Suggestion)
    (arg : CArg) (hacc : ∀ sg ∈ acc, startsWithStr sg.value cw = true) :
    ∀ sg ∈ longSugg cw s e acc arg, startsWithStr sg.value cw = true := by
  intro sg hsg
  unfold longSugg at hsg
  rcases hl : arg.long with _ | l
  all_goals rw [hl] at hsg
  all_goals try dsimp only [] at hsg
  · exact hacc sg hsg
  · by_cases hc : startsWithStr ("--" ++ l) cw = true
    · rw [if_pos hc] at hsg
      rw [List.mem_append] at hsg
      rcases hsg with hsg | hsg
      · exact hacc sg hsg
      · rw [List.mem_singleton] at hsg
        rw [hsg]
        exact hc
    · rw [if_neg hc] at hsg
      exact hacc sg hsg

theorem mem_argSuggStep (cw : String) (s e : Nat) (acc : List Suggestion)
    (arg : CArg) (hacc : ∀ sg ∈ acc, startsWithStr sg.value cw = true) :
    ∀ sg ∈ argSuggStep cw s e acc arg, startsWithStr sg.value cw = true := by
  intro sg hsg
  unfold argSuggStep at hsg
  rcases hs2 : arg.short with _ | c
  all_goals rw [hs2] at hsg
  all_goals try dsimp only [] at hsg
  · exact mem_longSugg cw s e acc arg hacc sg hsg
  · by_cases hc : (startsWithStr ("-" ++ String.mk [c]) cw &&
        !(longSugg cw s e acc arg).any
          (fun s2 => s2.value = "-" ++ String.mk [c])) = true
    · rw [if_pos hc] at hsg
      rw [List.mem_append] at hsg
      rcases hsg with hsg | hsg
      · exact mem_longSugg cw s e acc arg hacc sg hsg
      · rw [List.mem_singleton] at hsg
        rw [hsg]
        rw [Bool.and_eq_true] at hc
        exact hc.1
    · rw [if_neg hc] at hsg
      exact mem_longSugg cw s e acc arg hacc sg hsg

theorem mem_argSugg_foldl (cw : String) (s e : Nat) (args : List CArg) :
    ∀ (acc : List Suggestion),
      (∀ sg ∈ acc, startsWithStr sg.value cw = true) →
      ∀ sg ∈ args.foldl (argSuggStep cw s e) acc,
        startsWithStr sg.value cw = true := by
  induction args with
  | nil =>
    intro acc hacc
    exact hacc
  | cons a rest ih =>
    intro acc hacc
    exact ih (argSuggStep cw s e acc a) (mem_argSuggStep cw s e acc a hacc)

theorem mem_find_argument_suggestions (cmd : Cmd) (cw : String) (s e : Nat)
    (sg : Suggestion) (h : sg ∈ find_argument_suggestions cmd cw s e) :
    startsWithStr sg.value cw = true := by
  unfold find_argument_suggestions at h
  by_cases hc : startsWithStr cw "-" = true
  · rw [if_neg (by rw [hc]; simp)] at h
    exact mem_argSugg_foldl cw s e cmd.args [] (by intro sg2 hsg2; cases hsg2) sg h
  · rw [Bool.not_eq_true] at hc
    rw [if_pos (by rw [hc]; rfl)] at h
    cases h

theorem mem_find_subcommand_suggestions (cmd : Cmd) (parts : List String)
    (cw : String) (s e : Nat) (sg : Suggestion)
    (h : sg ∈ find_subcommand_suggestions cmd parts cw s e) :
    startsWithStr sg.value cw = true := by
  unfold find_subcommand_suggestions at h
  rcases htr : traverseSubs cmd (parts.take (relevantCount parts cw)) with _ | cur
  · rw [htr] at h
    cases h
  · rw [htr] at h
    rw [List.mem_filterMap] at h
    rcases h with ⟨sc, hsc, hsome⟩
    by_cases hc : startsWithStr sc.name cw = true
    · rw [if_pos hc] at hsome
      injection hsome with h2
      rw [← h2]
      exact hc
    · rw [if_neg hc] at hsome
      cases hsome

theorem mem_dedupGo (seen : List String) (l : List Suggestion) (sg : Suggestion)
    (h : sg ∈ dedupGo seen l) : sg ∈ l := by
  induction l generalizing seen with
  | nil => cases h
  | cons a rest ih =>
    unfold dedupGo at h
    by_cases hc : a.value ∈ seen
    · rw [if_pos hc] at h
      exact List.mem_cons_of_mem a (ih seen h)
    · rw [if_neg hc] at h
      rw [List.mem_cons] at h
      rcases h with rfl | h
      · exact List.mem_cons_self _ _
      · exact List.mem_cons_of_mem a (ih (a.value :: seen) h)

theorem mem_valueCtxSuggestions (root : Cmd) (parts : List String) (cw : String)
    (s e : Nat) (sg : Suggestion) (h : sg ∈ valueCtxSuggestions root parts cw s e) :
    startsWithStr sg.value cw = true := by
  unfold valueCtxSuggestions at h
  by_cases hl : 2 ≤ parts.length
  · rw [if_pos hl] at h
    dsimp only [] at h
    rcases hg : parts.get? (parts.length - 2) with _ | anp
    · rw [hg] at h
      cases h
    · rw [hg] at h
      dsimp only [] at h
      rcases hf : findArgByFlag
          (get_command_at_path root (parts.take (parts.length - 2))) anp with _ | ca
      · rw [hf] at h
        cases h
      · rw [hf] at h
        dsimp only [] at h
        by_cases htv : ca.action.takesValues = true
        · rw [if_pos htv] at h
          exact mem_find_value_suggestions ca cw s e sg h
        · rw [if_neg htv] at h
          cases h
  · rw [if_neg hl] at h
    cases h

theorem mem_coreValueSuggs (root : Cmd) (parts : List String) (cw : String)
    (s e : Nat) (endsWS : Bool) (sg : Suggestion)
    (h : sg ∈ coreValueSuggs root parts cw s e endsWS) :
    startsWithStr sg.value cw = true := by
  unfold coreValueSuggs at h
  by_cases hc : (walkLoop root none endsWS parts).potentialValue = true
  · rw [if_pos hc] at h
    exact mem_valueCtxSuggestions root parts cw s e sg h
  · rw [if_neg hc] at h
    cases h

theorem mem_coreFallbackSuggs (root : Cmd) (parts : List String) (cw : String)
    (s e : Nat) (endsWS : Bool) (hws : endsWS = true → cw = "")
    (sg : Suggestion) (h : sg ∈ coreFallbackSuggs root parts cw s e endsWS) :
    startsWithStr sg.value cw = true := by
  unfold coreFallbackSuggs at h
  rw [List.mem_append] at h
  rcases h with h | h
  · rw [List.mem_append] at h
    rcases h with h | h
    · by_cases hd : startsWithStr cw "-" = true
      · rw [if_pos hd] at h
        exact mem_find_argument_suggestions _ cw s e sg h
      · rw [if_neg hd] at h
        cases h
    · exact mem_find_subcommand_suggestions _ [] cw s e sg h
  · by_cases hd : (endsWS && cw.isEmpty) = true
    · rw [if_pos hd] at h
      rw [Bool.and_eq_true] at hd
      rw [hws hd.1]
      exact startsWithStr_empty sg.value
    · rw [if_neg hd] at h
      cases h

theorem mem_completeCore (root : Cmd) (parts : List String) (cw : String)
    (s e : Nat) (endsWS : Bool) (hws : endsWS = true → cw = "")
    (sg : Suggestion) (h : sg ∈ completeCore root parts cw s e endsWS) :
    startsWithStr sg.value cw = true := by
  unfold completeCore at h
  have h2 := mem_dedupGo [] _ sg h
  rw [List.mem_append] at h2
  rcases h2 with h2 | h2
  · rw [List.mem_append] at h2
    rcases h2 with h2 | h2
    · exact mem_coreValueSuggs root parts cw s e endsWS sg h2
    · unfold coreTrailingValueSuggs at h2
      by_cases hc : (endsWS && (walkLoop root none endsWS parts).lastArg.elim false
          (fun a => a.action.takesValues)) = true
      · rw [if_pos hc] at h2
        rw [Bool.and_eq_true] at hc
        rw [hws hc.1]
        exact startsWithStr_empty sg.value
      · rw [if_neg hc] at h2
        cases h2
  · by_cases hc : (coreValueSuggs root parts cw s e endsWS ++
        coreTrailingValueSuggs root parts s e endsWS).isEmpty = true
    · rw [if_pos hc] at h2
      exact mem_coreFallbackSuggs root parts cw s e endsWS hws sg h2
    · rw [if_neg hc] at h2
      cases h2

theorem getLast?_mem_of_not_empty :
    ∀ (l : List String), l.isEmpty = false → ∃ x, l.getLast? = some x ∧ x ∈ l := by
  intro l
  induction l with
  | nil =>
    intro h
    cases h
  | cons a t ih =>
    intro h
    cases t with
    | nil => exact ⟨a, List.getLast?_singleton a, List.mem_singleton.mpr rfl⟩
    | cons b t2 =>
      rcases ih rfl with ⟨x, hx, hmem⟩
      refine ⟨x, ?_, List.mem_cons_of_mem a hmem⟩
      rw [List.getLast?_cons_cons]
      exact hx

/-- C3: every suggestion the completion engine returns (when it returns,
see the C4 analysis for the cursor bound) has a value starting with the
current word being completed - the word the completer itself derives
from the truncated line, empty on a trailing space or an empty token
list. -/
theorem claim_C3 (root : Cmd) (line : String) (pos : Nat)
    (suggs : List Suggestion) (h : complete_opt root line pos = some suggs) :
    ∀ sg ∈ suggs, startsWithStr sg.value (currentWordAt line pos) = true := by
  unfold complete_opt at h
  by_cases hpos : pos ≤ line.toList.length
  · rw [if_pos hpos] at h
    dsimp only [] at h
    by_cases hcond : ((line.toList.take pos).getLast? = some ' ') ∨
        ((tokensOf (line.toList.take pos)).isEmpty = true)
    · rw [if_pos hcond] at h
      injection h with h2
      have hcw : currentWordAt line pos = "" := by
        unfold currentWordAt
        rw [if_pos hcond]
      rw [hcw, ← h2]
      intro sg hsg
      exact mem_completeCore root _ "" pos pos _ (fun _ => rfl) sg hsg
    · rw [if_neg hcond] at h
      rcases hlast : (tokensOf (line.toList.take pos)).getLast? with _ | last
      · rw [hlast] at h
        cases h
      · rw [hlast] at h
        dsimp only [] at h
        by_cases hlen : last.toList.length ≤ pos
        · rw [if_pos hlen] at h
          injection h with h2
          have hcw : currentWordAt line pos = last := by
            unfold currentWordAt
            rw [if_neg hcond, hlast]
            rfl
          rw [hcw, ← h2]
          intro sg hsg
          refine mem_completeCore root _ last (pos - last.toList.length) pos _
            ?_ sg hsg
          intro hd
          exact absurd (of_decide_eq_true hd) (fun hx => hcond (Or.inl hx))
        · rw [if_neg hlen] at h
          cases h
  · rw [if_neg hpos] at h
    cases h

/-- C3 witness: the claim applied to scenario C - completing v1.a at
cursor 4 over the demo grammar. -/
theorem claim_C3_witness :
    ((complete_opt demoGrammar "v1.a" 4).getD []).all
      (fun sg => startsWithStr sg.value (currentWordAt "v1.a" 4)) = true := by
  rw [List.all_eq_true]
  intro sg hsg
  exact claim_C3 demoGrammar "v1.a" 4 _ rfl sg hsg

/-- C4 counterexample: at a cursor position past the end of the line the
Rust completer panics (the byte slice of the line is out of range);
modelled as the none result, so the claim that complete never raises for
any cursor position fails at pos 3 on the two-character line. -/
theorem claim_C4_counterexample :
    complete_opt demoGrammar "ab" 3 = none := rfl

/-- C4 amended: for every grammar, line and cursor position within the
line, complete returns a suggestion list (none of the modelled panics is
reachable), and without a compiled grammar the result is the empty
list. -/
theorem claim_C4_amended (grammar : Option Cmd) (line : String) (pos : Nat)
    (hpos : pos ≤ line.toList.length) :
    ∃ suggs, get_completions grammar line pos = some suggs ∧
      (grammar = none → suggs = []) := by
  rcases grammar with _ | cmd
  · exact ⟨[], rfl, fun _ => rfl⟩
  · have hsome : ∃ l, complete_opt cmd line pos = some l := by
      unfold complete_opt
      rw [if_pos hpos]
      dsimp only []
      by_cases hcond : ((line.toList.take pos).getLast? = some ' ') ∨
          ((tokensOf (line.toList.take pos)).isEmpty = true)
      · rw [if_pos hcond]
        exact ⟨_, rfl⟩
      · rw [if_neg hcond]
        have hne : (tokensOf (line.toList.take pos)).isEmpty = false := by
          rcases he : (tokensOf (line.toList.take pos)).isEmpty
          · rfl
          · exact absurd (Or.inr he) hcond
        rcases getLast?_mem_of_not_empty _ hne with ⟨last, hlast, hmem⟩
        rw [hlast]
        dsimp only []
        have hlen : last.toList.length ≤ pos := by
          have h1 := tokensOf_token_le (line.toList.take pos) last hmem
          have h2 : (line.toList.take pos).length ≤ pos := by
            rw [List.length_take]
            omega
          omega
        rw [if_pos hlen]
        exact ⟨_, rfl⟩
    rcases hsome with ⟨l, hl⟩
    exact ⟨l, hl, fun hcon => Option.noConfusion hcon⟩

/-- C4 witness: the amended claim at scenario C's line and cursor. -/
theorem claim_C4_witness :
    ∃ suggs, get_completions (some demoGrammar) "v1.a" 4 = some suggs ∧
      (some demoGrammar = none → suggs = []) :=
  claim_C4_amended (some demoGrammar) "v1.a" 4 (by decide)

/-! ## Claim C2 (round-trip naming) -/

/-- C2 counterexample: both paths of shadowSpec compile (to
users.id.get and users.profile.get), but reverse resolution of
users.profile.get returns the earlier placeholder path, not the path the
name was derived from - the placeholder segment id matches the literal
segment profile. -/
theorem claim_C2_counterexample :
    (build_cli_from_spec shadowSpec).subs.map Cmd.name
      = ["users.id.get", "users.profile.get"] ∧
    resolvePathWasm shadowSpec "users.profile.get"
      = .ok ("/users/{id}", { get := some plainOp }) ∧
    ("/users/{id}" : String) ≠ "/users/profile" :=
  ⟨rfl, rfl, by decide⟩

theorem splitOnChar_ne_nil (sep : Char) (l : List Char) :
    splitOnChar sep l ≠ [] := by
  cases l with
  | nil =>
    intro h
    cases h
  | cons c rest =>
    unfold splitOnChar
    rcases hr : splitOnChar sep rest with _ | ⟨h2, t2⟩
    · intro h
      cases h
    · dsimp only []
      by_cases hc : c = sep
      · rw [if_pos hc]
        intro h
        cases h
      · rw [if_neg hc]
        intro h
        cases h

theorem splitOnChar_no_sep (sep : Char) (l : List Char) (h : sep ∉ l) :
    splitOnChar sep l = [l] := by
  induction l with
  | nil => rfl
  | cons c rest ih =>
    have hcr : sep ∉ rest := fun hx => h (List.mem_cons_of_mem c hx)
    have hc : c ≠ sep := fun hx => h (by rw [hx]; exact List.mem_cons_self sep rest)
    unfold splitOnChar
    rw [ih hcr]
    try dsimp only []
    rw [if_neg hc]

theorem splitOnChar_append_sep (sep : Char) (s t : List Char) (h : sep ∉ s) :
    splitOnChar sep (s ++ sep :: t) = s :: splitOnChar sep t := by
  induction s with
  | nil =>
    show splitOnChar sep (sep :: t) = [] :: splitOnChar sep t
    rw [show splitOnChar sep (sep :: t)
        = match splitOnChar sep t with
          | [] => [[]]
          | h2 :: t2 => if sep = sep then [] :: h2 :: t2 else (sep :: h2) :: t2
      from rfl]
    rcases ht : splitOnChar sep t with _ | ⟨h2, t2⟩
    · exact absurd ht (splitOnChar_ne_nil sep t)
    · dsimp only []
      rw [if_pos rfl]
  | cons c s2 ih =>
    have hcr : sep ∉ s2 := fun hx => h (List.mem_cons_of_mem c hx)
    have hc : c ≠ sep := fun hx => h (by rw [hx]; exact List.mem_cons_self sep s2)
    show splitOnChar sep (c :: (s2 ++ sep :: t)) = (c :: s2) :: splitOnChar sep t
    rw [show splitOnChar sep (c :: (s2 ++ sep :: t))
        = match splitOnChar sep (s2 ++ sep :: t) with
          | [] => [[]]
          | h2 :: t2 => if c = sep then [] :: h2 :: t2 else (c :: h2) :: t2
      from rfl]
    rw [ih hcr]
    dsimp only []
    rw [if_neg hc]

theorem splitOnChar_joinSep (sep : Char) (L : List (List Char)) (hL : L ≠ [])
    (h : ∀ s ∈ L, sep ∉ s) :
    splitOnChar sep (joinSep sep L) = L := by
  induction L with
  | nil => exact absurd rfl hL
  | cons s rest ih =>
    cases rest with
    | nil =>
      show splitOnChar sep s = [s]
      exact splitOnChar_no_sep sep s (h s (List.mem_cons_self s []))
    | cons r rs =>
      show splitOnChar sep (s ++ sep :: joinSep sep (r :: rs)) = s :: r :: rs
      rw [splitOnChar_append_sep sep s _ (h s (List.mem_cons_self s _))]
      rw [ih (by intro hcon; cases hcon)
        (fun s2 hs2 => h s2 (List.mem_cons_of_mem s hs2))]

theorem joinSep_map (f : Char → Char) (sep sep' : Char) (hsep : f sep = sep')
    (L : List (List Char)) :
    (joinSep sep L).map f = joinSep sep' (L.map (List.map f)) := by
  induction L with
  | nil => rfl
  | cons s rest ih =>
    cases rest with
    | nil => rfl
    | cons r rs =>
      show (s ++ sep :: joinSep sep (r :: rs)).map f
        = s.map f ++ sep' :: joinSep sep' ((r :: rs).map (List.map f))
      rw [List.map_append, List.map_cons, hsep, ih]

theorem joinSep_filter (p : Char → Bool) (sep : Char) (hsep : p sep = true)
    (L : List (List Char)) :
    (joinSep sep L).filter p = joinSep sep (L.map (List.filter p)) := by
  induction L with
  | nil => rfl
  | cons s rest ih =>
    cases rest with
    | nil => rfl
    | cons r rs =>
      show (s ++ sep :: joinSep sep (r :: rs)).filter p
        = s.filter p ++ sep :: joinSep sep ((r :: rs).map (List.filter p))
      rw [List.filter_append, List.filter_cons, hsep]
      simp only [if_true]
      rw [ih]

theorem joinSep_concat (sep : Char) (L : List (List Char)) (x : List Char)
    (hL : L ≠ []) :
    joinSep sep (L ++ [x]) = joinSep sep L ++ sep :: x := by
  induction L with
  | nil => exact absurd rfl hL
  | cons s rest ih =>
    cases rest with
    | nil => rfl
    | cons r rs =>
      show joinSep sep (s :: ((r :: rs) ++ [x]))
        = (s ++ sep :: joinSep sep (r :: rs)) ++ sep :: x
      have h2 : joinSep sep (s :: ((r :: rs) ++ [x]))
          = s ++ sep :: joinSep sep ((r :: rs) ++ [x]) := by
        rcases rs with _ | ⟨a, b⟩
        · rfl
        · rfl
      rw [h2, ih (by intro hcon; cases hcon)]
      rw [List.append_assoc]
      rfl

theorem map_no_slash_id (s : List Char) (h : '/' ∉ s) :
    s.map (fun c => if c = '/' then '.' else c) = s := by
  induction s with
  | nil => rfl
  | cons c rest ih =>
    have hc : c ≠ '/' := fun hx => h (by rw [hx]; exact List.mem_cons_self _ _)
    have hr : '/' ∉ rest := fun hx => h (List.mem_cons_of_mem c hx)
    rw [List.map_cons, if_neg hc, ih hr]

theorem dropWhile_joinSep (segs : List (List Char))
    (hne : ∀ s ∈ segs, s ≠ []) (hns : ∀ s ∈ segs, '/' ∉ s) :
    (joinSep '/' segs).dropWhile (· = '/') = joinSep '/' segs := by
  cases segs with
  | nil => rfl
  | cons s rest =>
    rcases hs : s with _ | ⟨c, s2⟩
    · exact absurd hs (hne s (List.mem_cons_self s rest) ·)
    · have hc : c ≠ '/' := by
        intro hcon
        apply hns s (List.mem_cons_self s rest)
        rw [hs, hcon]
        exact List.mem_cons_self _ _
      cases rest with
      | nil =>
        show (c :: s2).dropWhile (· = '/') = c :: s2
        rw [List.dropWhile_cons]
        simp only [hc, decide_eq_true_eq, if_false]
      | cons r rs =>
        show ((c :: s2) ++ '/' :: joinSep '/' (r :: rs)).dropWhile (· = '/')
          = (c :: s2) ++ '/' :: joinSep '/' (r :: rs)
        rw [List.cons_append, List.dropWhile_cons]
        simp only [hc, decide_eq_true_eq, if_false]

theorem cmdNameStemChars_eq (path : String) (segs : List (List Char))
    (hpath : path.toList = '/' :: joinSep '/' segs)
    (hne : ∀ s ∈ segs, s ≠ [])
    (hns : ∀ s ∈ segs, '/' ∉ s) :
    cmdNameStemChars path = joinSep '.' (segs.map (List.filter notBrace)) := by
  unfold cmdNameStemChars
  rw [hpath]
  rw [List.dropWhile_cons]
  rw [if_pos (by decide)]
  rw [dropWhile_joinSep segs hne hns]
  rw [joinSep_map (fun c => if c = '/' then '.' else c) '/' '.' rfl segs]
  rw [show segs.map (List.map (fun c => if c = '/' then '.' else c))
      = segs.map id from List.map_congr_left
        (fun s hs => map_no_slash_id s (hns s hs))]
  rw [List.map_id]
  rw [joinSep_filter notBrace '.' (by decide) segs]

theorem splitSegs_eq (path : String) (segs : List (List Char))
    (hpath : path.toList = '/' :: joinSep '/' segs)
    (hne : ∀ s ∈ segs, s ≠ [])
    (hns : ∀ s ∈ segs, '/' ∉ s)
    (hsegs : segs ≠ []) :
    splitSegs path = segs := by
  unfold splitSegs
  rw [hpath]
  rw [show splitOnChar '/' ('/' :: joinSep '/' segs)
      = match splitOnChar '/' (joinSep '/' segs) with
        | [] => [[]]
        | h2 :: t2 => if '/' = '/' then [] :: h2 :: t2 else ('/' :: h2) :: t2
    from rfl]
  rw [splitOnChar_joinSep '/' segs hsegs hns]
  rcases segs with _ | ⟨s1, rest⟩
  · exact absurd rfl hsegs
  · dsimp only []
    rw [if_pos rfl]
    rw [List.filter_cons]
    rw [if_neg (by intro hcon; cases hcon)]
    rw [List.filter_eq_self.mpr]
    intro s hs
    have hne2 := hne s hs
    rcases s with _ | ⟨c, s2⟩
    · exact absurd rfl hne2
    · rfl

theorem mem_zip_map_self {α β : Type} (f : α → β) (l : List α) :
    ∀ p ∈ l.zip (l.map f), p.1 ∈ l ∧ p.2 = f p.1 := by
  induction l with
  | nil =>
    intro p hp
    cases hp
  | cons a t ih =>
    intro p hp
    rw [List.map_cons, List.zip_cons_cons, List.mem_cons] at hp
    rcases hp with rfl | hp
    · exact ⟨List.mem_cons_self _ _, rfl⟩
    · rcases ih p hp with ⟨h1, h2⟩
      exact ⟨List.mem_cons_of_mem a h1, h2⟩

theorem find?_middle {α : Type} (p : α → Bool) (pre post : List α) (x : α)
    (hpre : ∀ y ∈ pre, p y = false) (hx : p x = true) :
    (pre ++ x :: post).find? p = some x := by
  induction pre with
  | nil =>
    rw [List.nil_append]
    exact List.find?_cons_of_pos post hx
  | cons a t ih =>
    rw [List.cons_append]
    rw [List.find?_cons_of_neg _ (by
      rw [Bool.not_eq_true]
      exact hpre a (List.mem_cons_self a t))]
    exact ih (fun y hy => hpre y (List.mem_cons_of_mem a hy))

/-- C2 amended: for a well-formed path template - slash-separated
non-empty segments, no dot surviving brace-stripping, braces occurring
only as whole placeholder segments - and a method defined on it, the
derived subcommand name reverse-resolves to exactly that (path template,
method) pair, provided no path earlier in the document's iteration order
also matches the derived segment list (a placeholder segment matching
any literal); without that proviso an earlier placeholder path shadows
the pair (see the counterexample). -/
theorem claim_C2_amended
    (spec : OpenAPIV3) (pre post : List (String × PathItem))
    (path : String) (item : PathItem) (segs : List (List Char))
    (m : String) (op : Operation)
    (hspec : spec.paths = pre ++ (path, item) :: post)
    (hpath : path.toList = '/' :: joinSep '/' segs)
    (hsegs : segs ≠ [])
    (hne : ∀ s ∈ segs, s ≠ [])
    (hns : ∀ s ∈ segs, '/' ∉ s)
    (hnd : ∀ s ∈ segs, '.' ∉ s.filter notBrace)
    (hbr : ∀ s ∈ segs, isParamSeg s = true ∨ ('{' ∉ s ∧ '}' ∉ s))
    (hm : m ∈ (["GET", "POST", "PUT", "DELETE", "PATCH"] : List String))
    (hop : operationForMethod item m = some op)
    (hfirst : ∀ pi ∈ pre,
      segsMatch (splitSegs pi.1) (segs.map (List.filter notBrace)) = false) :
    resolvePathWasm spec (subcommandName path m) = .ok (path, item) ∧
    dispatchMethodStr (subcommandName path m) = m ∧
    operationForMethod item (dispatchMethodStr (subcommandName path m))
      = some op := by
  have hmfact : ('.' ∉ m.toList.map Char.toLower) ∧
      ((m.toList.map Char.toLower).map Char.toUpper = m.toList) := by
    rw [List.mem_cons, List.mem_cons, List.mem_cons, List.mem_cons,
      List.mem_singleton] at hm
    rcases hm with rfl | rfl | rfl | rfl | rfl
    · exact ⟨by decide, by decide⟩
    · exact ⟨by decide, by decide⟩
    · exact ⟨by decide, by decide⟩
    · exact ⟨by decide, by decide⟩
    · exact ⟨by decide, by decide⟩
  have hstem := cmdNameStemChars_eq path segs hpath hne hns
  have hname : (subcommandName path m).toList
      = joinSep '.' ((segs.map (List.filter notBrace))
          ++ [m.toList.map Char.toLower]) := by
    show subcommandNameChars path m = _
    unfold subcommandNameChars
    rw [hstem]
    rw [joinSep_concat '.' _ _ (by
      intro hcon
      exact hsegs (List.map_eq_nil_iff.mp hcon))]
  have hsplit : splitOnChar '.' (subcommandName path m).toList
      = (segs.map (List.filter notBrace)) ++ [m.toList.map Char.toLower] := by
    rw [hname]
    apply splitOnChar_joinSep
    · intro hcon
      rcases List.append_eq_nil.mp hcon with ⟨_, h2⟩
      cases h2
    · intro s hs
      rw [List.mem_append] at hs
      rcases hs with hs | hs
      · rw [List.mem_map] at hs
        rcases hs with ⟨s0, hs0, rfl⟩
        exact hnd s0 hs0
      · rw [List.mem_singleton] at hs
        rw [hs]
        exact hmfact.1
  have hlast : (splitOnChar '.' (subcommandName path m).toList).getLast?
      = some (m.toList.map Char.toLower) := by
    rw [hsplit]
    exact List.getLast?_concat _
  have hlen2 : 2 ≤ (splitOnChar '.' (subcommandName path m).toList).length := by
    rw [hsplit, List.length_append, List.length_map, List.length_singleton]
    have := List.length_pos.mpr hsegs
    omega
  have hdrop : (splitOnChar '.' (subcommandName path m).toList).dropLast
      = segs.map (List.filter notBrace) := by
    rw [hsplit]
    exact List.dropLast_concat
  have hmethod : dispatchMethodStr (subcommandName path m) = m := by
    unfold dispatchMethodStr
    rw [hlast]
    simp only [Option.getD]
    rw [hmfact.2]
    rfl
  have hmatch : segsMatch (splitSegs path) (segs.map (List.filter notBrace))
      = true := by
    rw [splitSegs_eq path segs hpath hne hns hsegs]
    unfold segsMatch
    rw [Bool.and_eq_true]
    constructor
    · exact decide_eq_true (by rw [List.length_map])
    · rw [List.all_eq_true]
      intro p hp
      rcases mem_zip_map_self (List.filter notBrace) segs p hp with ⟨hp1, hp2⟩
      rw [Bool.or_eq_true]
      rcases hbr p.1 hp1 with hpar | ⟨hb1, hb2⟩
      · left
        exact hpar
      · right
        have hfe : p.1.filter notBrace = p.1 := by
          rw [List.filter_eq_self]
          intro c hc
          have h1 : c ≠ '{' := fun hx => hb1 (hx ▸ hc)
          have h2 : c ≠ '}' := fun hx => hb2 (hx ▸ hc)
          unfold notBrace
          rw [Bool.and_eq_true]
          exact ⟨decide_eq_true h1, decide_eq_true h2⟩
        exact decide_eq_true ((hp2.trans hfe).symm)
  refine ⟨?_, hmethod, by rw [hmethod]; exact hop⟩
  unfold resolvePathWasm
  dsimp only []
  rw [hlast]
  dsimp only []
  rw [if_neg (by omega)]
  rw [hdrop, hspec]
  rw [find?_middle (fun pi => segsMatch (splitSegs pi.1)
      (segs.map (List.filter notBrace))) pre post (path, item) hfirst hmatch]

/-- The segments of the products path, used by the C2 witness. -/
def wSegs : List (List Char) :=
  [['v', '1'], ['p', 'r', 'o', 'd', 'u', 'c', 't', 's'], ['{', 'i', 'd', '}']]

/-- C2 witness: the amended claim at the products document - the
compiled name v1.products.id.get reverse-resolves to the products path
and the GET operation. -/
theorem claim_C2_witness :
    resolvePathWasm productSpec (subcommandName "/v1/products/{id}" "GET")
      = .ok ("/v1/products/{id}", { get := some productOp }) ∧
    dispatchMethodStr (subcommandName "/v1/products/{id}" "GET") = "GET" ∧
    operationForMethod { get := some productOp }
      (dispatchMethodStr (subcommandName "/v1/products/{id}" "GET"))
      = some productOp :=
  claim_C2_amended productSpec [] [] "/v1/products/{id}"
    { get := some productOp } wSegs "GET" productOp rfl (by decide) (by decide)
    (by decide) (by decide) (by decide) (by decide) (by decide) rfl
    (fun pi hpi => absurd hpi (List.not_mem_nil pi))
